import Mathlib

/-!
Verification of the port-identity normalization and calibration-mapping
engine of the hubmap repository (`src/lib/mapper.js`, `src/lib/store.js`).

Strings are modelled as Lean `String`s (lists of characters); a JavaScript
value that may be `null`/`undefined` is modelled as an `Option`.  The
regular-expression scans of the source are embedded as explicit
left-to-right scanners with maximal munch, which coincides with the
backtracking semantics here because every character class involved
excludes the delimiter that follows it.  JavaScript numbers passed to
`addMapping` are modelled as rationals so that `Number.isInteger` is
expressible; mapping objects are association lists with JS-object update
semantics (replace in place, else append).

`extractPortIndex` renders the matched digits through
`String(parseInt(match[1], 10))`.  A JS number is an IEEE-754 double, so
this pipeline is modelled exactly: the digit run is parsed to its exact
integer value, rounded to the nearest double (ties to even, `Infinity`
beyond `2^1024`), and rendered by the ECMA-262 `Number::toString`
algorithm — exact decimal digits below `2^53`, shortest round-tripping
digits padded with zeros up to `10^21`, exponential notation above, and
the string `Infinity` for the overflowed value.  Integer rounding and the
digit search are expressed over `Nat`, so every step is kernel-evaluable.
-/

namespace HubMap

/-- Decidable equality on `Except`, so results of fallible operations can
be evaluated on concrete inputs. -/
instance {ε α : Type} [DecidableEq ε] [DecidableEq α] :
    DecidableEq (Except ε α) := fun x y =>
  match x, y with
  | .ok a, .ok b =>
    if h : a = b then isTrue (by rw [h]) else isFalse (by simp [h])
  | .error e, .error f =>
    if h : e = f then isTrue (by rw [h]) else isFalse (by simp [h])
  | .ok _, .error _ => isFalse (by simp)
  | .error _, .ok _ => isFalse (by simp)

/-- JS `s.startsWith(p)` on character lists (`p` first). -/
def startsWithL : List Char → List Char → Bool
  | [], _ => true
  | _ :: _, [] => false
  | p :: ps, c :: cs => p = c && startsWithL ps cs

/-- The regex class `\d`, i.e. ASCII `0`-`9`. -/
def isDigitC (c : Char) : Bool := 48 ≤ c.toNat && c.toNat ≤ 57

/-- The regex class `[A-F0-9]` under the `i` flag: digits, `A`-`F`, `a`-`f`. -/
def isHexI (c : Char) : Bool :=
  isDigitC c || (65 ≤ c.toNat && c.toNat ≤ 70) || (97 ≤ c.toNat && c.toNat ≤ 102)

/-- JavaScript `toUpperCase` restricted to ASCII (exact on every character
the extracted captures can contain). -/
def upChar (c : Char) : Char :=
  if 97 ≤ c.toNat && c.toNat ≤ 122 then Char.ofNat (c.toNat - 32) else c

/-- The `[A-F0-9]+&` part of the chip regex (tail of `/\\(\d+&[A-F0-9]+)&/i`):
`ds` is the already-captured digit run, `r2` the input after the first `&`.
Maximal munch is faithful: neither class contains `&`. -/
def matchChipHex (ds r2 : List Char) : Option (List Char) :=
  let hs := r2.takeWhile isHexI
  match r2.dropWhile isHexI with
  | [] => none
  | b :: _ =>
    if hs.isEmpty ∨ b ≠ '&' then none
    else some (ds ++ '&' :: hs)

def matchChipAt (cs : List Char) : Option (List Char) :=
  let ds := cs.takeWhile isDigitC
  match cs.dropWhile isDigitC with
  | [] => none
  | a :: r2 =>
    if ds.isEmpty ∨ a ≠ '&' then none
    else matchChipHex ds r2

/-- Leftmost match of `/\\(\d+&[A-F0-9]+)&/i` over the character list:
scan for a backslash and try `matchChipAt` on what follows. -/
def findChip : List Char → Option (List Char)
  | [] => none
  | c :: rest =>
    if c = '\\' then
      match matchChipAt rest with
      | some cap => some cap
      | none => findChip rest
    else findChip rest

/-- `mapper.js` `extractChipPrefix(parent)`: `null`/empty input gives `null`;
otherwise the captured group of the first regex match, uppercased. -/
def extractChipPrefix (parent : Option String) : Option String :=
  match parent with
  | none => none
  | some p =>
    if p = "" then none
    else (findChip p.data).map fun cap => ⟨cap.map upChar⟩

/-- Case-insensitive literal match of a pattern against the head of the
input, returning the remaining input on success (regex `/i` on ASCII). -/
def ciPrefix : List Char → List Char → Option (List Char)
  | [], cs => some cs
  | _ :: _, [] => none
  | p :: ps, c :: cs => if upChar c = upChar p then ciPrefix ps cs else none

/-- Leftmost match of `/Port_#(\d+)/i`: at each position try the
case-insensitive literal `Port_#` followed by at least one digit; the
capture is the maximal digit run. -/
def findPort : List Char → Option (List Char)
  | [] => none
  | c :: rest =>
    match ciPrefix "Port_#".data (c :: rest) with
    | some r =>
      let ds := r.takeWhile isDigitC
      if ds.isEmpty then findPort rest else some ds
    | none => findPort rest

/-- The numeric value of a digit string (JS `parseInt(s, 10)` on an
all-digit string). -/
def digitsToNat (ds : List Char) : Nat :=
  ds.foldl (fun a c => 10 * a + (c.toNat - 48)) 0

/-- The ASCII digit character of `n < 10`. -/
def natDigitChar (n : Nat) : Char := Char.ofNat (48 + n)

/-- Decimal digit characters of `n`, most significant first, with explicit
fuel (structural recursion so the kernel can evaluate it). -/
def natDigitsAux : Nat → Nat → List Char → List Char
  | 0, _, acc => acc
  | f + 1, n, acc =>
    if n < 10 then natDigitChar n :: acc
    else natDigitsAux f (n / 10) (natDigitChar (n % 10) :: acc)

/-- The exact decimal rendering of a non-negative integer `n`. -/
def natToStr (n : Nat) : String := ⟨natDigitsAux (n + 1) n []⟩

/-- `|a - b|` on naturals. -/
def natDist (a b : Nat) : Nat := if a ≤ b then b - a else a - b

/-- Number of binary digits of `n` (`0` for `0`), with structural fuel. -/
def bitLenAux : Nat → Nat → Nat
  | 0, _ => 0
  | f + 1, n => if n = 0 then 0 else bitLenAux f (n / 2) + 1

/-- Number of binary digits of `n`. -/
def bitLen (n : Nat) : Nat := bitLenAux (n + 1) n

/-- Round a non-negative integer to the nearest IEEE-754 double
(round-to-nearest, ties-to-even on the 53-bit significand); `none` is
`Infinity` (rounded value at least `2^1024`).  This is the `𝔽(_)`
conversion that `parseInt` applies to the exact value of the digit run. -/
def roundNatToDouble (n : Nat) : Option Nat :=
  if n < 2 ^ 53 then some n
  else
    let k := bitLen n - 53
    let q := n / 2 ^ k
    let r := n % 2 ^ k
    let q2 := if 2 ^ (k - 1) < r ∨ (r = 2 ^ (k - 1) ∧ q % 2 = 1) then q + 1 else q
    let v := q2 * 2 ^ k
    if v < 2 ^ 1024 then some v else none

/-- ECMA `Number::toString` digit-candidate set for value `v` at digit
count `k`: the scaled values `s * 10^(n-k)` nearest to `v` for the two
possible decimal exponents (`D` is the decimal digit count of `v`),
filtered to `k`-digit `s` whose scaled value rounds back to `v`. -/
def candsAtK (v D k : Nat) : List (Nat × Nat) :=
  let near := fun (n : Nat) =>
    let p := 10 ^ (n - k)
    let s0 := v / p
    [(s0, s0 * p), (s0 + 1, (s0 + 1) * p)]
  (near D ++ near (D + 1)).filter fun c =>
    decide (10 ^ (k - 1) ≤ c.1) && decide (c.1 < 10 ^ k) &&
      decide (roundNatToDouble c.2 = some v)

/-- Choose the candidate whose scaled value is closest to `v`; on a tie,
the even digit string (ECMA tie rule). -/
def pickCand (v : Nat) : List (Nat × Nat) → Option (Nat × Nat)
  | [] => none
  | c :: rest =>
    match pickCand v rest with
    | none => some c
    | some b =>
      if natDist c.2 v < natDist b.2 v then some c
      else if natDist b.2 v < natDist c.2 v then some b
      else if c.1 % 2 = 0 then some c else some b

/-- Search increasing digit counts for the smallest `k` admitting a valid
candidate, returning `(k, s, scaled)`. -/
def searchK (v D : Nat) : Nat → Nat → Option (Nat × Nat × Nat)
  | 0, _ => none
  | f + 1, k =>
    match pickCand v (candsAtK v D k) with
    | some c => some (k, c.1, c.2)
    | none => searchK v D f (k + 1)

/-- ECMA-262 `Number::toString` (base 10) for a non-negative integral
double value `v`: exact digits below `2^53` (where every integer is its
own shortest representation); otherwise the shortest digit string `s`
whose scaled value rounds to `v`, rendered as `s` padded with zeros when
the decimal exponent stays at or below 21 and in exponential notation
above that. -/
def jsNumToStr (v : Nat) : String :=
  if v < 2 ^ 53 then natToStr v
  else
    let D := (natToStr v).data.length
    match searchK v D (D + 2) 1 with
    | some (k, s, scaled) =>
      let n := (natToStr scaled).data.length
      let sd := (natToStr s).data
      if n ≤ 21 then ⟨sd ++ List.replicate (n - k) '0'⟩
      else if k = 1 then ⟨sd⟩ ++ "e+" ++ natToStr (n - 1)
      else ⟨sd.take 1⟩ ++ "." ++ ⟨sd.drop 1⟩ ++ "e+" ++ natToStr (n - 1)
    | none => natToStr v

/-- JS `String(parseInt(ds, 10))` for an all-digit run `ds`: exact parse,
round to double, render (the string `Infinity` past the double range). -/
def jsParsePrint (ds : List Char) : String :=
  match roundNatToDouble (digitsToNat ds) with
  | some v => jsNumToStr v
  | none => "Infinity"

/-- `mapper.js` `extractPortIndex(location)`: `null`/empty input gives
`null`; otherwise the first `Port_#` digit run, re-rendered through
`String(parseInt(match[1], 10))` with full JS double semantics. -/
def extractPortIndex (location : Option String) : Option String :=
  match location with
  | none => none
  | some l =>
    if l = "" then none
    else (findPort l.data).map fun ds => jsParsePrint ds

/-- `mapper.js` `normalizeLocation(location, parent)`: both extractions
must produce a truthy (non-null, non-empty) string. -/
def normalizeLocation (location parent : Option String) : Option String :=
  match extractChipPrefix parent, extractPortIndex location with
  | some cp, some pi => if cp = "" || pi = "" then none else some (cp ++ "|" ++ pi)
  | some _, none => none
  | none, _ => none

/-! ### PortMapper state and operations (`src/lib/mapper.js`) -/

/-- In-memory calibration mapping: a JS object keyed by identity key with
integer values, as an association list (JS objects keep keys unique and
update in place). -/
structure PortMapper where
  mappings : List (String × Int)
deriving DecidableEq

/-- JS `obj[key]`: the value stored under `key`, or `undefined` (`none`). -/
def lookupMap (m : List (String × Int)) (k : String) : Option Int :=
  (m.find? fun p => p.1 = k).map fun p => p.2

/-- JS `key in obj`. -/
def hasKey (m : List (String × Int)) (k : String) : Bool :=
  (m.find? fun p => p.1 = k).isSome

/-- JS `obj[key] = v`: replace the value in place if the key exists,
otherwise append a new entry. -/
def setKey : List (String × Int) → String → Int → List (String × Int)
  | [], k, v => [(k, v)]
  | (k', v') :: rest, k, v =>
    if k' = k then (k, v) :: rest else (k', v') :: setKey rest k v

/-- `getPhysicalPort(location, parent)`: normalize, then
`this.mappings[key] || null` — a stored falsy value (0) coerces to null. -/
def getPhysicalPort (m : PortMapper) (location parent : Option String) : Option Int :=
  match normalizeLocation location parent with
  | none => none
  | some key =>
    if key = "" then none
    else match lookupMap m.mappings key with
      | none => none
      | some v => if v = 0 then none else some v

/-- Errors thrown by `addMapping`. -/
inductive MapperError where
  | normalizationError
  | invalidPortError
deriving DecidableEq

/-- `addMapping(location, parent, physicalPort)`: throws on a falsy key,
then on `!Number.isInteger(physicalPort) || physicalPort < 1 ||
physicalPort > 7`; otherwise writes and returns the key.  The JS number is
a rational; `Number.isInteger` is `den = 1`. -/
def addMapping (m : PortMapper) (location parent : Option String)
    (physicalPort : ℚ) : Except MapperError (PortMapper × String) :=
  match normalizeLocation location parent with
  | none => .error .normalizationError
  | some key =>
    if key = "" then .error .normalizationError
    else if physicalPort.den ≠ 1 || physicalPort < 1 || 7 < physicalPort then
      .error .invalidPortError
    else
      .ok (⟨setKey m.mappings key physicalPort.num⟩, key)

/-- `hasMapping(location, parent)`: `key ? key in this.mappings : false`. -/
def hasMapping (m : PortMapper) (location parent : Option String) : Bool :=
  match normalizeLocation location parent with
  | none => false
  | some key => if key = "" then false else hasKey m.mappings key

/-- `getExistingPort(location, parent)`:
`key ? this.mappings[key] || null : null`. -/
def getExistingPort (m : PortMapper) (location parent : Option String) : Option Int :=
  match normalizeLocation location parent with
  | none => none
  | some key =>
    if key = "" then none
    else match lookupMap m.mappings key with
      | none => none
      | some v => if v = 0 then none else some v

/-- `isKnownChip(location, parent)`: some mapping key starts with
`chipPrefix + "|"`. -/
def isKnownChip (m : PortMapper) (location parent : Option String) : Bool :=
  match extractChipPrefix parent with
  | none => false
  | some cp =>
    if cp = "" then false
    else m.mappings.any fun p => startsWithL (cp.data ++ ['|']) p.1.data

/-- `isCalibrated()`: `Object.keys(this.mappings).length >= 7`. -/
def isCalibrated (m : PortMapper) : Bool := 7 ≤ m.mappings.length

/-- `getMappingCount()`: `Object.keys(this.mappings).length`. -/
def getMappingCount (m : PortMapper) : Nat := m.mappings.length

/-- `getKnownChips()` splits each key on `|` and keeps the first piece;
this is the "chip-prefix portion" of a key (`key.split('|')[0]`). -/
def chipOfKey (k : String) : String := ⟨k.data.takeWhile fun c => c ≠ '|'⟩

/-! ### Calibration store schema validation (`src/lib/store.js`) -/

/-- A JSON-compatible JavaScript value (`undefined` is represented by
`Option` at use sites). -/
inductive JsonVal where
  | null
  | bool (b : Bool)
  | num (q : ℚ)
  | str (s : String)
  | arr (xs : List JsonVal)
  | obj (fields : List (String × JsonVal))

/-- JS truthiness of a value. -/
def truthy : JsonVal → Bool
  | .null => false
  | .bool b => b
  | .num q => q ≠ 0
  | .str s => s ≠ ""
  | .arr _ => true
  | .obj _ => true

/-- JS `typeof v === 'object'` (true for `null`, arrays, and objects). -/
def typeofIsObject : JsonVal → Bool
  | .null => true
  | .arr _ => true
  | .obj _ => true
  | _ => false

/-- JS property access `v.name` for the field names the validator reads
(`undefined` when absent or when `v` is not a plain object). -/
def getField : JsonVal → String → Option JsonVal
  | .obj fs, k => (fs.find? fun p => p.1 = k).map fun p => p.2
  | _, _ => none

/-- JS `Object.entries(v)` for the values that reach it in `validate`
(objects and arrays). -/
def entriesOf : JsonVal → List (String × JsonVal)
  | .obj fs => fs
  | .arr xs => (List.range xs.length).zip xs |>.map fun p => (natToStr p.1, p.2)
  | _ => []

/-- The trailing `\d+$` of the anchored key pattern of `store.js`,
`/^\d+&[A-F0-9]+\|\d+$/i`.  Maximal munch is faithful throughout: no
class contains its following delimiter. -/
def keyPatternTail2 (r4 : List Char) : Bool :=
  !(r4.takeWhile isDigitC).isEmpty && (r4.dropWhile isDigitC).isEmpty

/-- The `[A-F0-9]+\|\d+$` part of the key pattern. -/
def keyPatternTail1 (r2 : List Char) : Bool :=
  let hs := r2.takeWhile isHexI
  match r2.dropWhile isHexI with
  | [] => false
  | b :: r4 => !hs.isEmpty && b = '|' && keyPatternTail2 r4

def keyPatternTest (s : String) : Bool :=
  let ds := s.data.takeWhile isDigitC
  match s.data.dropWhile isDigitC with
  | [] => false
  | a :: r2 => !ds.isEmpty && a = '&' && keyPatternTail1 r2

/-- `Number.isInteger(value) && value >= 1 && value <= 7` for a mapping
value. -/
def validValue : JsonVal → Bool
  | .num q => q.den = 1 && 1 ≤ q && q ≤ 7
  | _ => false

/-- The distinct failures `store.js` `validate` can throw. -/
inductive SchemaError where
  | notObject
  | badVersion
  | badMappings
  | badKey (k : String)
  | badValue (k : String)
deriving DecidableEq

/-- The supported schema version string. -/
def SCHEMA_VERSION : String := "1.0"

/-- JS strict equality `v === s` between a possibly-`undefined` value and a
string literal. -/
def strictEqStr (v : Option JsonVal) (s : String) : Bool :=
  match v with
  | some (.str t) => t = s
  | _ => false

/-- The `for (const [key, value] of Object.entries(data.mappings))` loop
of `validate`. -/
def validateEntries : List (String × JsonVal) → Except SchemaError Bool
  | [] => .ok true
  | (k, v) :: rest =>
    if !keyPatternTest k then .error (.badKey k)
    else if !validValue v then .error (.badValue k)
    else validateEntries rest

/-- `store.js` `validate(data)`; the argument is `none` when the caller
passes `undefined`. -/
def validate (data : Option JsonVal) : Except SchemaError Bool :=
  match data with
  | none => .error .notObject
  | some d =>
    if !truthy d || !typeofIsObject d then .error .notObject
    else if !strictEqStr (getField d "version") SCHEMA_VERSION then .error .badVersion
    else
      match getField d "mappings" with
      | none => .error .badMappings
      | some mp =>
        if !truthy mp || !typeofIsObject mp then .error .badMappings
        else validateEntries (entriesOf mp)

/-! ### Spec-side comparison definitions

These follow the wording of the specification (not the source) and are
used only on the right-hand side of refinement statements. -/

/-- Spec wording for `extractPortIndex`: "the digits with leading zeros
stripped" (all-zero digit runs leave a single `0`). -/
def stripLeadingZeros (ds : List Char) : List Char :=
  match ds.dropWhile fun c => c = '0' with
  | [] => ['0']
  | r => r

/-- Spec wording for `getKnownChips`/`isKnownChip`: "the chip-prefix
portion (the part before the pipe) of a key". -/
def chipPortionOfKey (k : String) : String := chipOfKey k

/-- Spec condition: the document is a structured record (truthy and of JS
object type). -/
def isStructuredRecord (data : Option JsonVal) : Bool :=
  match data with
  | none => false
  | some d => truthy d && typeofIsObject d

/-- Spec condition: the version field exactly equals the supported version
string. -/
def versionFieldOK (data : Option JsonVal) : Bool :=
  match data with
  | none => false
  | some d => strictEqStr (getField d "version") SCHEMA_VERSION

/-- Spec condition: the mappings field is present and is a mapping
structure. -/
def mappingsFieldOK (data : Option JsonVal) : Bool :=
  match data with
  | none => false
  | some d =>
    match getField d "mappings" with
    | none => false
    | some mp => truthy mp && typeofIsObject mp

/-- Spec condition: some mapping key fails the identity-key pattern. -/
def hasBadKey (data : Option JsonVal) : Bool :=
  match data with
  | none => false
  | some d =>
    match getField d "mappings" with
    | none => false
    | some mp => (entriesOf mp).any fun p => !keyPatternTest p.1

/-- Spec condition: some mapping value is not an integer in `[1,7]`. -/
def hasBadValue (data : Option JsonVal) : Bool :=
  match data with
  | none => false
  | some d =>
    match getField d "mappings" with
    | none => false
    | some mp => (entriesOf mp).any fun p => !validValue p.2

/-! ### Character-level lemmas -/

theorem char_eq_of_toNat {c1 c2 : Char} (h : c1.toNat = c2.toNat) : c1 = c2 := by
  have h1 := Char.ofNat_toNat c1
  rw [← h1, h, Char.ofNat_toNat]

theorem char_eq_iff_toNat {c1 c2 : Char} : c1 = c2 ↔ c1.toNat = c2.toNat :=
  ⟨fun h => by rw [h], char_eq_of_toNat⟩

theorem toNat_ofNat_small {n : Nat} (h : n < 128) : (Char.ofNat n).toNat = n := by
  have hv : n.isValidChar := Or.inl (by omega)
  simp only [Char.ofNat, hv, dif_pos, Char.ofNatAux, Char.toNat]
  rfl

theorem bool_eq_of_iff {a b : Bool} (h : a = true ↔ b = true) : a = b := by
  cases a <;> cases b <;> simp_all

theorem upChar_toNat (c : Char) :
    (upChar c).toNat =
      if 97 ≤ c.toNat ∧ c.toNat ≤ 122 then c.toNat - 32 else c.toNat := by
  unfold upChar
  simp only [Bool.and_eq_true, decide_eq_true_eq]
  by_cases h : 97 ≤ c.toNat ∧ c.toNat ≤ 122
  · rw [if_pos h, if_pos h, toNat_ofNat_small (by omega)]
  · rw [if_neg h, if_neg h]

theorem isDigitC_iff {c : Char} : isDigitC c = true ↔ 48 ≤ c.toNat ∧ c.toNat ≤ 57 := by
  simp [isDigitC]

theorem isHexI_iff {c : Char} :
    isHexI c = true ↔
      (48 ≤ c.toNat ∧ c.toNat ≤ 57) ∨ (65 ≤ c.toNat ∧ c.toNat ≤ 70) ∨
        (97 ≤ c.toNat ∧ c.toNat ≤ 102) := by
  simp [isHexI, isDigitC, or_assoc]

theorem upChar_of_digit {c : Char} (h : isDigitC c = true) : upChar c = c := by
  rw [isDigitC_iff] at h
  apply char_eq_of_toNat
  rw [upChar_toNat, if_neg (by omega)]

theorem isDigitC_upChar (c : Char) : isDigitC (upChar c) = isDigitC c := by
  apply bool_eq_of_iff
  rw [isDigitC_iff, isDigitC_iff]
  have h3 := upChar_toNat c
  split at h3 <;> omega

theorem isHexI_upChar (c : Char) : isHexI (upChar c) = isHexI c := by
  apply bool_eq_of_iff
  rw [isHexI_iff, isHexI_iff]
  have h3 := upChar_toNat c
  split at h3 <;> omega

theorem upChar_eq_backslash {c : Char} : upChar c = '\\' ↔ c = '\\' := by
  rw [char_eq_iff_toNat, char_eq_iff_toNat]
  have h3 := upChar_toNat c
  have hb : ('\\').toNat = 92 := by decide
  rw [hb]
  split at h3 <;> omega

theorem upChar_eq_amp {c : Char} : upChar c = '&' ↔ c = '&' := by
  rw [char_eq_iff_toNat, char_eq_iff_toNat]
  have h3 := upChar_toNat c
  have hb : ('&').toNat = 38 := by decide
  rw [hb]
  split at h3 <;> omega

theorem digit_ne_pipe {c : Char} (h : isDigitC c = true) : c ≠ '|' := by
  rw [isDigitC_iff] at h
  intro he
  rw [char_eq_iff_toNat] at he
  have hb : ('|').toNat = 124 := by decide
  omega

theorem hex_ne_pipe {c : Char} (h : isHexI c = true) : c ≠ '|' := by
  rw [isHexI_iff] at h
  intro he
  rw [char_eq_iff_toNat] at he
  have hb : ('|').toNat = 124 := by decide
  omega

theorem upChar_ne_backslash_of_hex {c : Char} (h : isHexI c = true) :
    upChar c ≠ '\\' := by
  intro he
  rw [upChar_eq_backslash, char_eq_iff_toNat] at he
  rw [isHexI_iff] at h
  have hb : ('\\').toNat = 92 := by decide
  omega

theorem upChar_ne_pipe_of_hex {c : Char} (h : isHexI c = true) : upChar c ≠ '|' := by
  intro he
  have h3 := upChar_toNat c
  rw [isHexI_iff] at h
  rw [char_eq_iff_toNat] at he
  have hb : ('|').toNat = 124 := by decide
  split at h3 <;> omega

/-! ### takeWhile / dropWhile helpers -/

theorem mem_takeWhile_pred {p : Char → Bool} :
    ∀ {xs : List Char} {c : Char}, c ∈ xs.takeWhile p → p c = true := by
  intro xs
  induction xs with
  | nil => intro c hc; simp [List.takeWhile] at hc
  | cons x t ih =>
    intro c hc
    rw [List.takeWhile_cons] at hc
    by_cases hx : p x = true
    · rw [if_pos hx] at hc
      rcases List.mem_cons.mp hc with h | h
      · rw [h]; exact hx
      · exact ih h
    · rw [if_neg hx] at hc
      simp at hc

theorem takeWhile_of_all {p : Char → Bool} :
    ∀ {xs : List Char}, (∀ c ∈ xs, p c = true) → xs.takeWhile p = xs := by
  intro xs
  induction xs with
  | nil => intro _; rfl
  | cons x t ih =>
    intro h
    rw [List.takeWhile_cons, if_pos (h x (List.mem_cons_self x t))]
    rw [ih fun c hc => h c (List.mem_cons_of_mem x hc)]

theorem dropWhile_of_all {p : Char → Bool} :
    ∀ {xs : List Char}, (∀ c ∈ xs, p c = true) → xs.dropWhile p = [] := by
  intro xs
  induction xs with
  | nil => intro _; rfl
  | cons x t ih =>
    intro h
    rw [List.dropWhile_cons, if_pos (h x (List.mem_cons_self x t))]
    exact ih fun c hc => h c (List.mem_cons_of_mem x hc)

theorem takeWhile_append_stop {p : Char → Bool} {y : Char} {rest : List Char} :
    ∀ {xs : List Char}, (∀ c ∈ xs, p c = true) → p y = false →
      (xs ++ y :: rest).takeWhile p = xs := by
  intro xs
  induction xs with
  | nil => intro _ hy; simp [List.takeWhile_cons, hy]
  | cons x t ih =>
    intro h hy
    rw [List.cons_append, List.takeWhile_cons, if_pos (h x (List.mem_cons_self x t))]
    rw [ih (fun c hc => h c (List.mem_cons_of_mem x hc)) hy]

theorem dropWhile_append_stop {p : Char → Bool} {y : Char} {rest : List Char} :
    ∀ {xs : List Char}, (∀ c ∈ xs, p c = true) → p y = false →
      (xs ++ y :: rest).dropWhile p = y :: rest := by
  intro xs
  induction xs with
  | nil => intro _ hy; simp [List.dropWhile_cons, hy]
  | cons x t ih =>
    intro h hy
    rw [List.cons_append, List.dropWhile_cons, if_pos (h x (List.mem_cons_self x t))]
    exact ih (fun c hc => h c (List.mem_cons_of_mem x hc)) hy

/-! ### Characterization of the chip-prefix scan -/

theorem matchChipHex_nil {ds r2 : List Char} (h : r2.dropWhile isHexI = []) :
    matchChipHex ds r2 = none := by
  rw [matchChipHex, h]

theorem matchChipHex_cons {ds r2 r5 : List Char} {b : Char}
    (h : r2.dropWhile isHexI = b :: r5) :
    matchChipHex ds r2 =
      if (r2.takeWhile isHexI).isEmpty = true ∨ b ≠ '&' then none
      else some (ds ++ '&' :: r2.takeWhile isHexI) := by
  rw [matchChipHex, h]

theorem matchChipAt_dropNil {cs : List Char} (h : cs.dropWhile isDigitC = []) :
    matchChipAt cs = none := by
  rw [matchChipAt, h]

theorem matchChipAt_dropCons {cs r2 : List Char} {a : Char}
    (h : cs.dropWhile isDigitC = a :: r2) :
    matchChipAt cs =
      if (cs.takeWhile isDigitC).isEmpty = true ∨ a ≠ '&' then none
      else matchChipHex (cs.takeWhile isDigitC) r2 := by
  rw [matchChipAt, h]

theorem matchChipAt_some {cs cap : List Char} (h : matchChipAt cs = some cap) :
    ∃ ds hs, cap = ds ++ '&' :: hs ∧ ds ≠ [] ∧ (∀ c ∈ ds, isDigitC c = true) ∧
      hs ≠ [] ∧ (∀ c ∈ hs, isHexI c = true) := by
  cases hc : cs.dropWhile isDigitC with
  | nil => rw [matchChipAt_dropNil hc] at h; exact absurd h (by simp)
  | cons a r2 =>
    rw [matchChipAt_dropCons hc] at h
    by_cases hcnd : (cs.takeWhile isDigitC).isEmpty = true ∨ a ≠ '&'
    · rw [if_pos hcnd] at h; exact absurd h (by simp)
    · rw [if_neg hcnd] at h
      push_neg at hcnd
      cases hd : r2.dropWhile isHexI with
      | nil => rw [matchChipHex_nil hd] at h; exact absurd h (by simp)
      | cons b r5 =>
        rw [matchChipHex_cons hd] at h
        by_cases hcnd2 : (r2.takeWhile isHexI).isEmpty = true ∨ b ≠ '&'
        · rw [if_pos hcnd2] at h; exact absurd h (by simp)
        · rw [if_neg hcnd2] at h
          push_neg at hcnd2
          injection h with h
          refine ⟨cs.takeWhile isDigitC, r2.takeWhile isHexI, h.symm, ?_,
            fun c hc2 => mem_takeWhile_pred hc2, ?_, fun c hc2 => mem_takeWhile_pred hc2⟩
          · intro hne; exact hcnd.1 (by rw [hne]; rfl)
          · intro hne; exact hcnd2.1 (by rw [hne]; rfl)

theorem findChip_some {cs cap : List Char} (h : findChip cs = some cap) :
    ∃ ds hs, cap = ds ++ '&' :: hs ∧ ds ≠ [] ∧ (∀ c ∈ ds, isDigitC c = true) ∧
      hs ≠ [] ∧ (∀ c ∈ hs, isHexI c = true) := by
  induction cs with
  | nil => simp [findChip] at h
  | cons c rest ih =>
    rw [findChip] at h
    by_cases hc : c = '\\'
    · rw [if_pos hc] at h
      cases hm : matchChipAt rest with
      | some cap2 =>
        rw [hm] at h
        injection h with h
        subst h
        exact matchChipAt_some hm
      | none =>
        rw [hm] at h
        exact ih h
    · rw [if_neg hc] at h
      exact ih h

theorem map_upChar_digits {ds : List Char} (h : ∀ c ∈ ds, isDigitC c = true) :
    ds.map upChar = ds := by
  induction ds with
  | nil => rfl
  | cons c t ih =>
    rw [List.map_cons, upChar_of_digit (h c (List.mem_cons_self c t)),
      ih fun c hc => h c (List.mem_cons_of_mem _ hc)]

theorem extractChipPrefix_some {p : Option String} {cp : String}
    (h : extractChipPrefix p = some cp) :
    ∃ ds hs, cp.data = ds ++ '&' :: hs ∧ ds ≠ [] ∧ (∀ c ∈ ds, isDigitC c = true) ∧
      hs ≠ [] ∧ (∀ c ∈ hs, isHexI c = true) := by
  cases p with
  | none => exact absurd h (by simp [extractChipPrefix])
  | some s =>
    rw [extractChipPrefix] at h
    by_cases hs0 : s = ""
    · rw [if_pos hs0] at h; exact absurd h (by simp)
    · rw [if_neg hs0] at h
      cases hf : findChip s.data with
      | none => rw [hf] at h; exact absurd h (by simp)
      | some cap =>
        rw [hf] at h
        obtain ⟨ds, hsx, hcap, hdne, hdall, hhne, hhall⟩ := findChip_some hf
        injection h with h
        refine ⟨ds, hsx.map upChar, ?_, hdne, hdall, by simpa using hhne, ?_⟩
        · rw [← h]
          show cap.map upChar = _
          have ha : upChar '&' = '&' := by decide
          rw [hcap, List.map_append, List.map_cons, map_upChar_digits hdall, ha]
        · intro c hc
          rw [List.mem_map] at hc
          obtain ⟨c0, hc0, hup⟩ := hc
          rw [← hup, isHexI_upChar]
          exact hhall c0 hc0

theorem extractChipPrefix_chars {p : Option String} {cp : String}
    (h : extractChipPrefix p = some cp) :
    ∀ c ∈ cp.data, c ≠ '\\' ∧ c ≠ '|' := by
  obtain ⟨ds, hs, hcap, _, hdall, _, hhall⟩ := extractChipPrefix_some h
  intro c hc
  rw [hcap] at hc
  have hb1 : ('\\').toNat = 92 := by decide
  have hb2 : ('|').toNat = 124 := by decide
  rcases List.mem_append.mp hc with hd | hd
  · have hdig := hdall c hd
    rw [isDigitC_iff] at hdig
    constructor <;> intro he <;> rw [char_eq_iff_toNat] at he <;> omega
  · rcases List.mem_cons.mp hd with he | hh
    · subst he; exact ⟨by decide, by decide⟩
    · have hhex := hhall c hh
      rw [isHexI_iff] at hhex
      constructor <;> intro he <;> rw [char_eq_iff_toNat] at he <;> omega

theorem extractChipPrefix_ne_empty {p : Option String} {cp : String}
    (h : extractChipPrefix p = some cp) : cp ≠ "" := by
  obtain ⟨ds, hs, hcap, hdne, _, _, _⟩ := extractChipPrefix_some h
  intro h0
  rw [h0] at hcap
  have : ([] : List Char) = ds ++ '&' :: hs := hcap
  cases ds <;> simp at this

theorem findChip_no_backslash : ∀ {cs : List Char}, (∀ c ∈ cs, c ≠ '\\') →
    findChip cs = none := by
  intro cs
  induction cs with
  | nil => intro _; rfl
  | cons c t ih =>
    intro h
    rw [findChip, if_neg (h c (List.mem_cons_self c t))]
    exact ih fun c hc => h c (List.mem_cons_of_mem _ hc)

theorem extractChipPrefix_self_none {p : Option String} {cp : String}
    (h : extractChipPrefix p = some cp) : extractChipPrefix (some cp) = none := by
  rw [extractChipPrefix]
  by_cases h0 : cp = ""
  · rw [if_pos h0]
  · rw [if_neg h0, findChip_no_backslash fun c hc => (extractChipPrefix_chars h c hc).1]
    rfl

/-! ### Case-insensitivity of the chip-prefix scan -/

theorem takeDropWhile_upperEq {P : Char → Bool} (hP : ∀ c, P (upChar c) = P c) :
    ∀ {l1 l2 : List Char}, l1.map upChar = l2.map upChar →
      (l1.takeWhile P).map upChar = (l2.takeWhile P).map upChar ∧
        (l1.dropWhile P).map upChar = (l2.dropWhile P).map upChar := by
  intro l1
  induction l1 with
  | nil =>
    intro l2 h
    cases l2 with
    | nil => exact ⟨rfl, rfl⟩
    | cons c2 t2 => simp at h
  | cons c t ih =>
    intro l2 h
    cases l2 with
    | nil => simp at h
    | cons c2 t2 =>
      simp only [List.map_cons, List.cons.injEq] at h
      obtain ⟨hc, ht⟩ := h
      have hPc : P c = P c2 := by rw [← hP c, hc, hP c2]
      obtain ⟨h1, h2⟩ := ih ht
      by_cases hp : P c = true
      · rw [List.takeWhile_cons, List.dropWhile_cons, if_pos hp, if_pos hp,
          List.takeWhile_cons, List.dropWhile_cons, if_pos (hPc ▸ hp), if_pos (hPc ▸ hp)]
        exact ⟨by rw [List.map_cons, List.map_cons, hc, h1], h2⟩
      · rw [List.takeWhile_cons, List.dropWhile_cons, if_neg hp, if_neg hp,
          List.takeWhile_cons, List.dropWhile_cons, if_neg (hPc ▸ hp), if_neg (hPc ▸ hp)]
        exact ⟨rfl, by rw [List.map_cons, List.map_cons, hc, ht]⟩

theorem isEmpty_eq_of_map_eq {l1 l2 : List Char}
    (h : l1.map upChar = l2.map upChar) : l1.isEmpty = l2.isEmpty := by
  cases l1 <;> cases l2 <;> simp_all

theorem matchChipAt_upperEq : ∀ {l1 l2 : List Char},
    l1.map upChar = l2.map upChar →
    (matchChipAt l1).map (List.map upChar) = (matchChipAt l2).map (List.map upChar) := by
  intro l1 l2 h
  obtain ⟨hdt, hdd⟩ := takeDropWhile_upperEq isDigitC_upChar h
  cases hc1 : l1.dropWhile isDigitC with
  | nil =>
    cases hc2 : l2.dropWhile isDigitC with
    | nil => rw [matchChipAt_dropNil hc1, matchChipAt_dropNil hc2]
    | cons a2 u2 => rw [hc1, hc2] at hdd; simp at hdd
  | cons a1 u1 =>
    cases hc2 : l2.dropWhile isDigitC with
    | nil => rw [hc1, hc2] at hdd; simp at hdd
    | cons a2 u2 =>
      rw [hc1, hc2] at hdd
      simp only [List.map_cons, List.cons.injEq] at hdd
      obtain ⟨ha, hu⟩ := hdd
      obtain ⟨hht, hhd⟩ := takeDropWhile_upperEq isHexI_upChar hu
      have hemp : (l1.takeWhile isDigitC).isEmpty = (l2.takeWhile isDigitC).isEmpty :=
        isEmpty_eq_of_map_eq hdt
      have hamp : a1 = '&' ↔ a2 = '&' := by
        constructor <;> intro hx
        · exact upChar_eq_amp.mp (by rw [← ha, hx]; decide)
        · exact upChar_eq_amp.mp (by rw [ha, hx]; decide)
      rw [matchChipAt_dropCons hc1, matchChipAt_dropCons hc2]
      by_cases hcnd : (l1.takeWhile isDigitC).isEmpty = true ∨ a1 ≠ '&'
      · rw [if_pos hcnd, if_pos (by rw [← hemp]; tauto)]
      · rw [if_neg hcnd, if_neg (by rw [← hemp]; tauto)]
        cases hd1 : u1.dropWhile isHexI with
        | nil =>
          cases hd2 : u2.dropWhile isHexI with
          | nil => rw [matchChipHex_nil hd1, matchChipHex_nil hd2]
          | cons b2 v2 => rw [hd1, hd2] at hhd; simp at hhd
        | cons b1 v1 =>
          cases hd2 : u2.dropWhile isHexI with
          | nil => rw [hd1, hd2] at hhd; simp at hhd
          | cons b2 v2 =>
            rw [hd1, hd2] at hhd
            simp only [List.map_cons, List.cons.injEq] at hhd
            obtain ⟨hb, hv⟩ := hhd
            have hemp2 : (u1.takeWhile isHexI).isEmpty = (u2.takeWhile isHexI).isEmpty :=
              isEmpty_eq_of_map_eq hht
            have hamp2 : b1 = '&' ↔ b2 = '&' := by
              constructor <;> intro hx
              · exact upChar_eq_amp.mp (by rw [← hb, hx]; decide)
              · exact upChar_eq_amp.mp (by rw [hb, hx]; decide)
            rw [matchChipHex_cons hd1, matchChipHex_cons hd2]
            by_cases hcnd2 : (u1.takeWhile isHexI).isEmpty = true ∨ b1 ≠ '&'
            · rw [if_pos hcnd2, if_pos (by rw [← hemp2]; tauto)]
            · rw [if_neg hcnd2, if_neg (by rw [← hemp2]; tauto)]
              simp [List.map_append, hdt, hht]

theorem findChip_upperEq : ∀ {l1 l2 : List Char},
    l1.map upChar = l2.map upChar →
    (findChip l1).map (List.map upChar) = (findChip l2).map (List.map upChar) := by
  intro l1
  induction l1 with
  | nil =>
    intro l2 h
    cases l2 with
    | nil => rfl
    | cons c2 t2 => simp at h
  | cons c t ih =>
    intro l2 h
    cases l2 with
    | nil => simp at h
    | cons c2 t2 =>
      simp only [List.map_cons, List.cons.injEq] at h
      obtain ⟨hc, ht⟩ := h
      have hbs : c = '\\' ↔ c2 = '\\' := by
        constructor <;> intro hx
        · exact upChar_eq_backslash.mp (by rw [← hc, hx]; decide)
        · exact upChar_eq_backslash.mp (by rw [hc, hx]; decide)
      rw [findChip, findChip]
      by_cases hx : c = '\\'
      · rw [if_pos hx, if_pos (hbs.mp hx)]
        have hm := matchChipAt_upperEq ht
        cases hm1 : matchChipAt t with
        | none =>
          cases hm2 : matchChipAt t2 with
          | none => exact ih ht
          | some cap2 => rw [hm1, hm2] at hm; simp at hm
        | some cap1 =>
          cases hm2 : matchChipAt t2 with
          | none => rw [hm1, hm2] at hm; simp at hm
          | some cap2 =>
            rw [hm1, hm2] at hm
            simp at hm
            simp [hm]
      · rw [if_neg hx, if_neg (fun hy => hx (hbs.mpr hy))]
        exact ih ht

theorem extractChipPrefix_upperEq {s1 s2 : String}
    (h : s1.data.map upChar = s2.data.map upChar) :
    extractChipPrefix (some s1) = extractChipPrefix (some s2) := by
  rw [extractChipPrefix, extractChipPrefix]
  have hlen : s1.data.length = s2.data.length := by
    have h2 := congrArg List.length h
    simpa using h2
  have hemp : s1 = "" ↔ s2 = "" := by
    constructor <;> intro hx
    · apply String.ext
      show s2.data = ("" : String).data
      have h1 : s1.data = [] := by rw [hx]
      rw [h1] at hlen
      have h2 : s2.data = [] := List.length_eq_zero.mp hlen.symm
      rw [h2]
    · apply String.ext
      show s1.data = ("" : String).data
      have h1 : s2.data = [] := by rw [hx]
      rw [h1] at hlen
      have h2 : s1.data = [] := List.length_eq_zero.mp hlen
      rw [h2]
  by_cases h1 : s1 = ""
  · rw [if_pos h1, if_pos (hemp.mp h1)]
  · rw [if_neg h1, if_neg (fun hy => h1 (hemp.mpr hy))]
    have hf := findChip_upperEq h
    cases hf1 : findChip s1.data with
    | none =>
      cases hf2 : findChip s2.data with
      | none => rfl
      | some cap2 => rw [hf1, hf2] at hf; simp at hf
    | some cap1 =>
      cases hf2 : findChip s2.data with
      | none => rw [hf1, hf2] at hf; simp at hf
      | some cap2 =>
        rw [hf1, hf2] at hf
        simp at hf
        simp [hf]

/-! ### Decimal rendering of parsed digit runs -/

theorem natDigitChar_isDigit {n : Nat} (h : n < 10) :
    isDigitC (natDigitChar n) = true := by
  rw [isDigitC_iff, natDigitChar, toNat_ofNat_small (by omega)]
  omega

theorem natDigitChar_digit_val {c : Char} (h : isDigitC c = true) :
    natDigitChar (c.toNat - 48) = c := by
  rw [isDigitC_iff] at h
  apply char_eq_of_toNat
  rw [natDigitChar, toNat_ofNat_small (by omega)]
  omega

theorem natDigitsAux_all_digits : ∀ (f n : Nat) (acc : List Char),
    (∀ c ∈ acc, isDigitC c = true) → ∀ c ∈ natDigitsAux f n acc, isDigitC c = true := by
  intro f
  induction f with
  | zero => intro n acc hacc; exact hacc
  | succ f ih =>
    intro n acc hacc c hc
    rw [natDigitsAux] at hc
    by_cases hn : n < 10
    · rw [if_pos hn] at hc
      rcases List.mem_cons.mp hc with h | h
      · rw [h]; exact natDigitChar_isDigit hn
      · exact hacc _ h
    · rw [if_neg hn] at hc
      refine ih _ _ ?_ c hc
      intro c2 hc2
      rcases List.mem_cons.mp hc2 with h | h
      · rw [h]; exact natDigitChar_isDigit (Nat.mod_lt _ (by omega))
      · exact hacc _ h

theorem natDigitsAux_ne_nil : ∀ (f n : Nat) (acc : List Char),
    1 ≤ f ∨ acc ≠ [] → natDigitsAux f n acc ≠ [] := by
  intro f
  induction f with
  | zero =>
    intro n acc h
    rcases h with h | h
    · omega
    · exact h
  | succ f ih =>
    intro n acc h
    rw [natDigitsAux]
    by_cases hn : n < 10
    · rw [if_pos hn]; simp
    · rw [if_neg hn]
      exact ih _ _ (Or.inr (by simp))

theorem digitsToNat_cons (c : Char) (t : List Char) :
    digitsToNat (c :: t) = t.foldl (fun a d => 10 * a + (d.toNat - 48)) (c.toNat - 48) := by
  rw [digitsToNat, List.foldl_cons]
  norm_num

theorem foldl_digits_ge : ∀ (t : List Char) (a : Nat),
    a ≤ t.foldl (fun a d => 10 * a + (d.toNat - 48)) a := by
  intro t
  induction t with
  | nil => intro a; exact Nat.le_refl a
  | cons d t2 ih =>
    intro a
    rw [List.foldl_cons]
    exact le_trans (by omega) (ih (10 * a + (d.toNat - 48)))

theorem digitsToNat_pos {c : Char} {t : List Char} (hd : isDigitC c = true)
    (hne : c ≠ '0') : 1 ≤ digitsToNat (c :: t) := by
  rw [digitsToNat_cons]
  refine le_trans ?_ (foldl_digits_ge t (c.toNat - 48))
  rw [isDigitC_iff] at hd
  have h0 : ('0').toNat = 48 := by decide
  have : c.toNat ≠ 48 := by
    intro hx
    exact hne (char_eq_of_toNat (by omega))
  omega

theorem digitsToNat_append_digit (xs : List Char) (d : Char) :
    digitsToNat (xs ++ [d]) = 10 * digitsToNat xs + (d.toNat - 48) := by
  rw [digitsToNat, digitsToNat, List.foldl_append]
  rfl

theorem digitsToNat_dropZeros : ∀ (ds : List Char),
    digitsToNat (ds.dropWhile fun c => c = '0') = digitsToNat ds := by
  intro ds
  induction ds with
  | nil => rfl
  | cons c t ih =>
    rw [List.dropWhile_cons]
    by_cases hc : c = '0'
    · rw [if_pos (by simp [hc]), ih]
      subst hc
      rw [digitsToNat_cons]
      have h0 : ('0').toNat - 48 = 0 := by decide
      rw [h0, digitsToNat]
    · rw [if_neg (by simp [hc])]

theorem natDigitsAux_roundtrip (r : List Char) :
    r ≠ [] → (∀ c ∈ r, isDigitC c = true) →
    (∀ c t, r = c :: t → c ≠ '0' ∨ t = []) →
    ∀ (f : Nat) (acc : List Char), 1 ≤ f → digitsToNat r < 10 ^ f →
      natDigitsAux f (digitsToNat r) acc = r ++ acc := by
  induction r using List.reverseRecOn with
  | nil => intro h; exact absurd rfl h
  | append_singleton r2 d ih =>
    intro _ hall hcanon f acc hf hlt
    have hd : isDigitC d = true := hall d (by simp)
    have hdv : d.toNat - 48 < 10 := by rw [isDigitC_iff] at hd; omega
    cases r2 with
    | nil =>
      have h0 : digitsToNat ([] : List Char) = 0 := rfl
      have hv : digitsToNat ([] ++ [d]) = d.toNat - 48 := by
        rw [digitsToNat_append_digit, h0]
        omega
      rw [List.nil_append] at hv ⊢
      obtain ⟨f2, rfl⟩ : ∃ f2, f = f2 + 1 := ⟨f - 1, by omega⟩
      rw [hv, natDigitsAux, if_pos hdv, natDigitChar_digit_val hd]
      rfl
    | cons c t =>
      simp only [List.cons_append] at hall hcanon hlt ⊢
      have hc0 : c ≠ '0' := by
        rcases hcanon c (t ++ [d]) rfl with h | h
        · exact h
        · simp at h
      have hcd : isDigitC c = true := hall c (by simp)
      have hv1 : 1 ≤ digitsToNat (c :: t) := digitsToNat_pos hcd hc0
      have hv : digitsToNat (c :: (t ++ [d])) =
          10 * digitsToNat (c :: t) + (d.toNat - 48) := by
        rw [← List.cons_append]
        exact digitsToNat_append_digit (c :: t) d
      have hge : 10 ≤ digitsToNat (c :: (t ++ [d])) := by omega
      obtain ⟨f2, rfl⟩ : ∃ f2, f = f2 + 1 := ⟨f - 1, by omega⟩
      have hf2 : 1 ≤ f2 := by
        by_contra hx
        have hz : f2 = 0 := by omega
        subst hz
        simp at hlt
        omega
      rw [natDigitsAux, if_neg (by omega)]
      have hdiv : digitsToNat (c :: (t ++ [d])) / 10 = digitsToNat (c :: t) := by omega
      have hmod : digitsToNat (c :: (t ++ [d])) % 10 = d.toNat - 48 := by omega
      rw [hdiv, hmod, natDigitChar_digit_val hd]
      have hlt2 : digitsToNat (c :: t) < 10 ^ f2 := by
        rw [pow_succ] at hlt
        omega
      rw [ih (by simp) (fun c2 hc2 => hall c2 (by
          rcases List.mem_cons.mp hc2 with h | h
          · simp [h]
          · simp [List.mem_append.mpr (Or.inl h)]))
        (fun c2 t2 he => by
          rw [List.cons.injEq] at he
          exact Or.inl (he.1 ▸ hc0)) f2 (d :: acc) hf2 hlt2]
      simp

theorem natToStr_zero : natToStr 0 = "0" := by decide

theorem natToStr_digits_roundtrip {ds : List Char} (hne : ds ≠ [])
    (hall : ∀ c ∈ ds, isDigitC c = true) :
    natToStr (digitsToNat ds) = ⟨stripLeadingZeros ds⟩ := by
  rw [stripLeadingZeros]
  cases hdz : ds.dropWhile (fun c => c = '0') with
  | nil =>
    have hz : digitsToNat ds = 0 := by
      rw [← digitsToNat_dropZeros, hdz]; rfl
    rw [hz, natToStr_zero]
  | cons c t =>
    have hv : digitsToNat ds = digitsToNat (c :: t) := by
      rw [← digitsToNat_dropZeros, hdz]
    have hsub : ∀ x ∈ c :: t, x ∈ ds := by
      intro x hx
      rw [← hdz] at hx
      exact (List.dropWhile_sublist _).subset hx
    have hc0 : c ≠ '0' := by
      have := List.head?_dropWhile_not (fun c => decide (c = '0')) ds
      rw [hdz] at this
      simp at this
      exact this
    have hn : digitsToNat (c :: t) < 10 ^ (digitsToNat (c :: t) + 1) := by
      calc digitsToNat (c :: t) < 10 ^ digitsToNat (c :: t) :=
            Nat.lt_pow_self (by norm_num) _
        _ ≤ 10 ^ (digitsToNat (c :: t) + 1) :=
            Nat.pow_le_pow_right (by norm_num) (by omega)
    rw [hv, natToStr]
    rw [natDigitsAux_roundtrip (c :: t) (by simp)
      (fun x hx => hall x (hsub x hx))
      (fun c2 t2 he => by rw [List.cons.injEq] at he; exact Or.inl (he.1 ▸ hc0))
      (digitsToNat (c :: t) + 1) [] (by omega) hn]
    simp

/-! ### The port-index scan -/

theorem findPort_cons_some {c : Char} {rest r : List Char}
    (h : ciPrefix "Port_#".data (c :: rest) = some r) :
    findPort (c :: rest) =
      if (r.takeWhile isDigitC).isEmpty = true then findPort rest
      else some (r.takeWhile isDigitC) := by
  rw [findPort, h]

theorem findPort_cons_none {c : Char} {rest : List Char}
    (h : ciPrefix "Port_#".data (c :: rest) = none) :
    findPort (c :: rest) = findPort rest := by
  rw [findPort, h]

theorem findPort_some_digits : ∀ {cs ds : List Char}, findPort cs = some ds →
    ds ≠ [] ∧ ∀ c ∈ ds, isDigitC c = true := by
  intro cs
  induction cs with
  | nil => intro ds h; exact absurd h (by simp [findPort])
  | cons c rest ih =>
    intro ds h
    cases hp : ciPrefix "Port_#".data (c :: rest) with
    | some r =>
      rw [findPort_cons_some hp] at h
      by_cases he : (r.takeWhile isDigitC).isEmpty = true
      · rw [if_pos he] at h
        exact ih h
      · rw [if_neg he] at h
        injection h with h
        subst h
        refine ⟨fun hne => he (by rw [hne]; rfl), fun c2 hc2 => mem_takeWhile_pred hc2⟩
    | none =>
      rw [findPort_cons_none hp] at h
      exact ih h

theorem roundNatToDouble_small {n : Nat} (h : n < 2 ^ 53) :
    roundNatToDouble n = some n := by
  rw [roundNatToDouble, if_pos h]

theorem jsNumToStr_small {v : Nat} (h : v < 2 ^ 53) : jsNumToStr v = natToStr v := by
  rw [jsNumToStr, if_pos h]

theorem jsParsePrint_small {ds : List Char} (h : digitsToNat ds < 2 ^ 53) :
    jsParsePrint ds = natToStr (digitsToNat ds) := by
  rw [jsParsePrint, roundNatToDouble_small h]
  exact jsNumToStr_small h

theorem extractPortIndex_eq_strip {l : String} {ds : List Char}
    (h : findPort l.data = some ds) (hsmall : digitsToNat ds < 2 ^ 53) :
    extractPortIndex (some l) = some ⟨stripLeadingZeros ds⟩ := by
  rw [extractPortIndex]
  have hl : ¬l = "" := by
    intro h0
    rw [h0] at h
    exact absurd h (by simp [findPort])
  rw [if_neg hl, h]
  obtain ⟨hne, hall⟩ := findPort_some_digits h
  simp only [Option.map]
  rw [jsParsePrint_small hsmall, natToStr_digits_roundtrip hne hall]

theorem ciPrefix_refl : ∀ (lit x : List Char), ciPrefix lit (lit ++ x) = some x := by
  intro lit
  induction lit with
  | nil => intro x; rfl
  | cons p ps ih =>
    intro x
    rw [List.cons_append, ciPrefix, if_pos rfl]
    exact ih x

theorem findPort_finds : ∀ (pre ds post : List Char), ds ≠ [] →
    (∀ c ∈ ds, isDigitC c = true) →
    (findPort (pre ++ ("Port_#".data ++ (ds ++ post)))).isSome = true := by
  intro pre
  induction pre with
  | nil =>
    intro ds post hne hall
    cases ds with
    | nil => exact absurd rfl hne
    | cons d t =>
      rw [List.nil_append]
      have hci : ciPrefix "Port_#".data
          ('P' :: (['o', 'r', 't', '_', '#'] ++ (d :: t ++ post))) =
          some (d :: t ++ post) := by
        rw [show ('P' :: (['o', 'r', 't', '_', '#'] ++ (d :: t ++ post)) : List Char) =
          "Port_#".data ++ (d :: t ++ post) from rfl]
        exact ciPrefix_refl _ _
      rw [show ("Port_#".data ++ (d :: t ++ post) : List Char) =
        'P' :: (['o', 'r', 't', '_', '#'] ++ (d :: t ++ post)) from rfl]
      rw [findPort_cons_some hci]
      have hd : isDigitC d = true := hall d (by simp)
      rw [List.cons_append, List.takeWhile_cons, if_pos hd]
      simp
  | cons p pre2 ih =>
    intro ds post hne hall
    rw [List.cons_append]
    cases hp : ciPrefix "Port_#".data (p :: (pre2 ++ ("Port_#".data ++ (ds ++ post)))) with
    | some r =>
      rw [findPort_cons_some hp]
      by_cases he : (r.takeWhile isDigitC).isEmpty = true
      · rw [if_pos he]
        exact ih ds post hne hall
      · rw [if_neg he]
        rfl
    | none =>
      rw [findPort_cons_none hp]
      exact ih ds post hne hall

/-! ### The key-pattern validator -/

theorem keyPatternTail1_cons {r2 r4 : List Char} {b : Char}
    (h : r2.dropWhile isHexI = b :: r4) :
    keyPatternTail1 r2 =
      (!(r2.takeWhile isHexI).isEmpty && b = '|' && keyPatternTail2 r4) := by
  rw [keyPatternTail1, h]

theorem keyPatternTail1_nil {r2 : List Char} (h : r2.dropWhile isHexI = []) :
    keyPatternTail1 r2 = false := by
  rw [keyPatternTail1, h]

theorem keyPatternTest_cons {s : String} {r2 : List Char} {a : Char}
    (h : s.data.dropWhile isDigitC = a :: r2) :
    keyPatternTest s =
      (!(s.data.takeWhile isDigitC).isEmpty && a = '&' && keyPatternTail1 r2) := by
  rw [keyPatternTest, h]

theorem keyPatternTest_nil {s : String} (h : s.data.dropWhile isDigitC = []) :
    keyPatternTest s = false := by
  rw [keyPatternTest, h]

theorem keyPatternTest_build {ds hs ds2 : List Char}
    (hd : ds ≠ []) (hda : ∀ c ∈ ds, isDigitC c = true)
    (hh : hs ≠ []) (hha : ∀ c ∈ hs, isHexI c = true)
    (hd2 : ds2 ≠ []) (hd2a : ∀ c ∈ ds2, isDigitC c = true) :
    keyPatternTest ⟨ds ++ '&' :: (hs ++ '|' :: ds2)⟩ = true := by
  have hdata : (⟨ds ++ '&' :: (hs ++ '|' :: ds2)⟩ : String).data
      = ds ++ '&' :: (hs ++ '|' :: ds2) := rfl
  have hamp : isDigitC '&' = false := by decide
  have hdrop : (ds ++ '&' :: (hs ++ '|' :: ds2)).dropWhile isDigitC
      = '&' :: (hs ++ '|' :: ds2) := dropWhile_append_stop hda hamp
  have htake : (ds ++ '&' :: (hs ++ '|' :: ds2)).takeWhile isDigitC = ds :=
    takeWhile_append_stop hda hamp
  rw [keyPatternTest_cons (by rw [hdata, hdrop])]
  rw [hdata, htake]
  have hpipe : isHexI '|' = false := by decide
  have hdrop2 : (hs ++ '|' :: ds2).dropWhile isHexI = '|' :: ds2 :=
    dropWhile_append_stop hha hpipe
  have htake2 : (hs ++ '|' :: ds2).takeWhile isHexI = hs :=
    takeWhile_append_stop hha hpipe
  rw [keyPatternTail1_cons hdrop2, htake2]
  rw [keyPatternTail2, takeWhile_of_all hd2a, dropWhile_of_all hd2a]
  simp [hd, hh, hd2, List.isEmpty_iff]

theorem keyPatternTest_decomp {k : String} (h : keyPatternTest k = true) :
    ∃ ds hs ds2, k.data = ds ++ '&' :: (hs ++ '|' :: ds2) ∧
      ds ≠ [] ∧ (∀ c ∈ ds, isDigitC c = true) ∧
      hs ≠ [] ∧ (∀ c ∈ hs, isHexI c = true) ∧
      ds2 ≠ [] ∧ (∀ c ∈ ds2, isDigitC c = true) := by
  cases h1 : k.data.dropWhile isDigitC with
  | nil => rw [keyPatternTest_nil h1] at h; exact absurd h (by simp)
  | cons a r2 =>
    rw [keyPatternTest_cons h1] at h
    simp only [Bool.and_eq_true, Bool.not_eq_true', decide_eq_true_eq] at h
    obtain ⟨⟨hde, ha⟩, ht1⟩ := h
    subst ha
    cases h2 : r2.dropWhile isHexI with
    | nil => rw [keyPatternTail1_nil h2] at ht1; exact absurd ht1 (by simp)
    | cons b r4 =>
      rw [keyPatternTail1_cons h2] at ht1
      simp only [Bool.and_eq_true, Bool.not_eq_true', decide_eq_true_eq] at ht1
      obtain ⟨⟨hhe, hb⟩, ht2⟩ := ht1
      subst hb
      rw [keyPatternTail2] at ht2
      simp only [Bool.and_eq_true, Bool.not_eq_true', List.isEmpty_iff] at ht2
      obtain ⟨hd2e, hd2d⟩ := ht2
      refine ⟨k.data.takeWhile isDigitC, r2.takeWhile isHexI, r4.takeWhile isDigitC,
        ?_, ?_, fun c hc => mem_takeWhile_pred hc, ?_, fun c hc => mem_takeWhile_pred hc,
        ?_, fun c hc => mem_takeWhile_pred hc⟩
      · have e3 : r4 = r4.takeWhile isDigitC := by
          have e := List.takeWhile_append_dropWhile isDigitC r4
          rw [hd2d] at e
          simpa using e.symm
        have e2 : r2 = r2.takeWhile isHexI ++ '|' :: (r4.takeWhile isDigitC) := by
          rw [← e3, ← h2]
          exact (List.takeWhile_append_dropWhile isHexI r2).symm
        calc k.data = k.data.takeWhile isDigitC ++ '&' :: r2 := by
              rw [← h1]
              exact (List.takeWhile_append_dropWhile isDigitC k.data).symm
          _ = k.data.takeWhile isDigitC ++ '&' ::
              (r2.takeWhile isHexI ++ '|' :: (r4.takeWhile isDigitC)) := by
              rw [← e2]
      · intro hne; rw [hne] at hde; simp at hde
      · intro hne; rw [hne] at hhe; simp at hhe
      · intro hne; rw [hne] at hd2e; simp at hd2e

/-! ### Association-list (JS object) lemmas -/

theorem lookupMap_setKey_self : ∀ (m : List (String × Int)) (k : String) (v : Int),
    lookupMap (setKey m k v) k = some v := by
  intro m k v
  induction m with
  | nil => simp [setKey, lookupMap]
  | cons p t ih =>
    obtain ⟨k2, v2⟩ := p
    rw [setKey]
    by_cases hk : k2 = k
    · rw [if_pos hk]
      simp [lookupMap]
    · rw [if_neg hk]
      rw [lookupMap, List.find?]
      have : (decide ((k2, v2).1 = k)) = false := by simp [hk]
      rw [this]
      exact ih

theorem lookupMap_setKey_other : ∀ (m : List (String × Int)) (k k2 : String) (v : Int),
    k2 ≠ k → lookupMap (setKey m k v) k2 = lookupMap m k2 := by
  intro m k k2 v hne
  have hne2 : ¬k = k2 := fun h => hne h.symm
  induction m with
  | nil => simp [setKey, lookupMap, List.find?, hne2]
  | cons p t ih =>
    obtain ⟨k3, v3⟩ := p
    rw [setKey]
    by_cases hk : k3 = k
    · rw [if_pos hk]
      rw [lookupMap, lookupMap, List.find?, List.find?]
      have h1 : (decide ((k, v).1 = k2)) = false := by simp [hne2]
      have h2 : (decide ((k3, v3).1 = k2)) = false := by simp [hk, hne2]
      rw [h1, h2]
    · rw [if_neg hk]
      rw [lookupMap, lookupMap, List.find?, List.find?]
      by_cases h3 : k3 = k2
      · have hd : (decide ((k3, v3).1 = k2)) = true := by simp [h3]
        rw [hd]
      · have hd : (decide ((k3, v3).1 = k2)) = false := by simp [h3]
        rw [hd]
        exact ih

theorem hasKey_iff_mem (m : List (String × Int)) (k : String) :
    hasKey m k = true ↔ k ∈ m.map Prod.fst := by
  induction m with
  | nil => simp [hasKey, List.find?]
  | cons p t ih =>
    obtain ⟨k2, v2⟩ := p
    rw [hasKey, List.find?]
    by_cases hk : k2 = k
    · simp [hk]
    · have : (decide ((k2, v2).1 = k)) = false := by simp [hk]
      rw [this]
      simp only [List.map_cons, List.mem_cons]
      rw [← hasKey]
      rw [ih]
      constructor
      · exact fun h => Or.inr h
      · intro h
        rcases h with h | h
        · exact absurd h.symm hk
        · exact h

theorem setKey_length_of_hasKey : ∀ (m : List (String × Int)) (k : String) (v : Int),
    hasKey m k = true → (setKey m k v).length = m.length := by
  intro m k v
  induction m with
  | nil => intro h; simp [hasKey, List.find?] at h
  | cons p t ih =>
    obtain ⟨k2, v2⟩ := p
    intro h
    rw [setKey]
    by_cases hk : k2 = k
    · rw [if_pos hk]
      simp
    · rw [if_neg hk]
      rw [hasKey, List.find?] at h
      have hd : (decide ((k2, v2).1 = k)) = false := by simp [hk]
      rw [hd] at h
      rw [List.length_cons, List.length_cons, ih h]

theorem setKey_keys : ∀ (m : List (String × Int)) (k : String) (v : Int),
    (setKey m k v).map Prod.fst =
      if hasKey m k = true then m.map Prod.fst else m.map Prod.fst ++ [k] := by
  intro m k v
  induction m with
  | nil => simp [setKey, hasKey, List.find?]
  | cons p t ih =>
    obtain ⟨k2, v2⟩ := p
    rw [setKey, hasKey, List.find?]
    by_cases hk : k2 = k
    · rw [if_pos hk]
      have hd : (decide ((k2, v2).1 = k)) = true := by simp [hk]
      rw [hd]
      simp [hk]
    · rw [if_neg hk]
      have hd : (decide ((k2, v2).1 = k)) = false := by simp [hk]
      rw [hd]
      rw [List.map_cons, List.map_cons, ih]
      rw [← hasKey]
      by_cases hh : hasKey t k = true
      · rw [if_pos hh, if_pos hh]
      · rw [if_neg hh, if_neg hh]
        simp

theorem setKey_nodup (m : List (String × Int)) (k : String) (v : Int)
    (h : (m.map Prod.fst).Nodup) : ((setKey m k v).map Prod.fst).Nodup := by
  rw [setKey_keys]
  by_cases hh : hasKey m k = true
  · rw [if_pos hh]; exact h
  · rw [if_neg hh]
    have hk : k ∉ m.map Prod.fst := by
      intro hmem
      exact hh ((hasKey_iff_mem m k).mpr hmem)
    simp [List.nodup_append, h, hk]

/-! ### normalizeLocation structure -/

theorem normalizeLocation_none_left {loc par : Option String}
    (h : extractChipPrefix par = none) : normalizeLocation loc par = none := by
  rw [normalizeLocation, h]

theorem normalizeLocation_none_right {loc par : Option String}
    (h : extractPortIndex loc = none) : normalizeLocation loc par = none := by
  rw [normalizeLocation, h]
  cases extractChipPrefix par <;> rfl

theorem normalizeLocation_eq_of_some {loc par : Option String} {cp pi : String}
    (hc : extractChipPrefix par = some cp) (hp : extractPortIndex loc = some pi) :
    normalizeLocation loc par =
      if cp = "" || pi = "" then none else some (cp ++ "|" ++ pi) := by
  rw [normalizeLocation, hc, hp]

theorem normalizeLocation_some {loc par : Option String} {k : String}
    (h : normalizeLocation loc par = some k) :
    ∃ cp pi, extractChipPrefix par = some cp ∧ extractPortIndex loc = some pi ∧
      ¬cp = "" ∧ ¬pi = "" ∧ k = cp ++ "|" ++ pi := by
  cases hc : extractChipPrefix par with
  | none => rw [normalizeLocation_none_left hc] at h; exact absurd h (by simp)
  | some cp =>
    cases hp : extractPortIndex loc with
    | none => rw [normalizeLocation_none_right hp] at h; exact absurd h (by simp)
    | some pi =>
      rw [normalizeLocation_eq_of_some hc hp] at h
      by_cases he : (cp = "" || pi = "") = true
      · rw [if_pos he] at h; exact absurd h (by simp)
      · rw [if_neg he] at h
        simp only [Bool.or_eq_true, decide_eq_true_eq] at he
        push_neg at he
        injection h with h
        exact ⟨cp, pi, rfl, rfl, he.1, he.2, h.symm⟩

theorem string_append_data (a b : String) : (a ++ b).data = a.data ++ b.data := rfl

theorem normalizeLocation_ne_empty {loc par : Option String} {k : String}
    (h : normalizeLocation loc par = some k) : ¬k = "" := by
  obtain ⟨cp, pi, _, _, _, _, hk⟩ := normalizeLocation_some h
  intro h0
  have hd : k.data = (cp.data ++ ['|']) ++ pi.data := by
    rw [hk, string_append_data, string_append_data]
  rw [h0] at hd
  have h2 : ([] : List Char) = (cp.data ++ ['|']) ++ pi.data := hd
  simp at h2

/-! ### startsWith and the chip portion of a key -/

theorem startsWithL_iff : ∀ (p s : List Char),
    startsWithL p s = true ↔ ∃ t, s = p ++ t := by
  intro p
  induction p with
  | nil => intro s; simp [startsWithL]
  | cons c ps ih =>
    intro s
    cases s with
    | nil =>
      rw [startsWithL]
      simp
    | cons c2 t =>
      rw [startsWithL]
      simp only [Bool.and_eq_true, decide_eq_true_eq]
      rw [ih t]
      constructor
      · rintro ⟨he, t2, ht⟩
        exact ⟨t2, by rw [List.cons_append, he, ht]⟩
      · rintro ⟨t2, ht⟩
        rw [List.cons_append] at ht
        injection ht with h1 h2
        exact ⟨h1.symm, t2, h2⟩

theorem chipOfKey_of_append {cp : String} {rest : List Char} {k : String}
    (hk : k.data = cp.data ++ '|' :: rest)
    (hnp : ∀ c ∈ cp.data, c ≠ '|') : chipOfKey k = cp := by
  apply String.ext
  show (k.data.takeWhile fun c => decide (c ≠ '|')) = cp.data
  rw [hk]
  exact takeWhile_append_stop (fun c hc => by simp [hnp c hc]) (by simp)

/-! ### Schema validation loop -/

theorem validateEntries_isOk (es : List (String × JsonVal)) :
    (validateEntries es).isOk =
      es.all fun p => keyPatternTest p.1 && validValue p.2 := by
  induction es with
  | nil => rfl
  | cons p t ih =>
    obtain ⟨k, v⟩ := p
    rw [validateEntries]
    by_cases h1 : keyPatternTest k = true
    · by_cases h2 : validValue v = true
      · rw [if_neg (by simp [h1]), if_neg (by simp [h2])]
        simp [h1, h2, ih]
      · have hv : validValue v = false := by revert h2; cases validValue v <;> simp
        rw [if_neg (by simp [h1]), if_pos (by rw [hv]; rfl)]
        simp [Except.isOk, Except.toBool, hv]
    · have hk : keyPatternTest k = false := by revert h1; cases keyPatternTest k <;> simp
      rw [if_pos (by rw [hk]; rfl)]
      simp [Except.isOk, Except.toBool, hk]

theorem addMapping_eq_none {m : PortMapper} {loc par : Option String} {q : ℚ}
    (hk : normalizeLocation loc par = none) :
    addMapping m loc par q = .error .normalizationError := by
  rw [addMapping, hk]

theorem addMapping_eq_some {m : PortMapper} {loc par : Option String} {q : ℚ}
    {k : String} (hk : normalizeLocation loc par = some k) :
    addMapping m loc par q =
      if k = "" then .error .normalizationError
      else if q.den ≠ 1 || q < 1 || 7 < q then .error .invalidPortError
      else .ok (⟨setKey m.mappings k q.num⟩, k) := by
  rw [addMapping, hk]

/-! ### Claim theorems -/

/-- C1: for location `Port_#0002.Hub_#0008` and parent
`USB\VID_2109&PID_0822\9&238498F1&0&3`, `normalizeLocation` yields the key
`9&238498F1|2`; `addMapping` with port 5 on an empty mapper stores exactly
that single entry and returns the key; a subsequent `getPhysicalPort` with
the same inputs returns 5. -/
theorem claim_C1_end_to_end :
    normalizeLocation (some "Port_#0002.Hub_#0008")
        (some "USB\\VID_2109&PID_0822\\9&238498F1&0&3") = some "9&238498F1|2" ∧
    addMapping ⟨[]⟩ (some "Port_#0002.Hub_#0008")
        (some "USB\\VID_2109&PID_0822\\9&238498F1&0&3") 5 =
      .ok (⟨[("9&238498F1|2", 5)]⟩, "9&238498F1|2") ∧
    getPhysicalPort ⟨[("9&238498F1|2", 5)]⟩ (some "Port_#0002.Hub_#0008")
        (some "USB\\VID_2109&PID_0822\\9&238498F1&0&3") = some 5 :=
  ⟨by decide, by decide, by decide⟩

/-- C2: `addMapping` raises the normalization error exactly when
`normalizeLocation` is absent (the mapper state is untouched, no `ok`
result is produced); otherwise it raises the invalid-port error exactly
when the port is not an integer or lies outside `[1,7]`; otherwise it
writes the port under the derived key — changing only that key — and
returns the key. -/
theorem claim_C2_addMapping_errors (m : PortMapper) (loc par : Option String) (q : ℚ) :
    (normalizeLocation loc par = none →
      addMapping m loc par q = .error .normalizationError) ∧
    (∀ k, normalizeLocation loc par = some k →
      ((¬q.den = 1 ∨ q < 1 ∨ 7 < q) →
        addMapping m loc par q = .error .invalidPortError) ∧
      (q.den = 1 → 1 ≤ q → q ≤ 7 →
        addMapping m loc par q = .ok (⟨setKey m.mappings k q.num⟩, k) ∧
        lookupMap (setKey m.mappings k q.num) k = some q.num ∧
        ∀ k2, k2 ≠ k →
          lookupMap (setKey m.mappings k q.num) k2 = lookupMap m.mappings k2)) := by
  constructor
  · intro h
    exact addMapping_eq_none h
  · intro k hk
    have hne := normalizeLocation_ne_empty hk
    constructor
    · intro hbad
      have hcond : (decide (q.den ≠ 1) || decide (q < 1) || decide (7 < q)) = true := by
        rcases hbad with h | h | h <;> simp [h]
      rw [addMapping_eq_some hk, if_neg hne, if_pos hcond]
    · intro hden h1 h7
      have hcond : (decide (q.den ≠ 1) || decide (q < 1) || decide (7 < q)) = false := by
        simp [hden, not_lt.mpr h1, not_lt.mpr h7]
      rw [addMapping_eq_some hk, if_neg hne, if_neg (by rw [hcond]; simp)]
      exact ⟨rfl, lookupMap_setKey_self _ _ _,
        fun k2 hk2 => lookupMap_setKey_other _ _ _ _ hk2⟩

/-- Witness for C2: a failed normalization raises the normalization error;
ports 0, 8 and 3/2 are rejected with the invalid-port error; boundary
ports 1 and 7 are accepted and written. -/
theorem claim_C2_addMapping_errors_witness :
    addMapping ⟨[]⟩ none none 5 = .error .normalizationError ∧
    addMapping ⟨[]⟩ (some "Port_#0001") (some "\\1&A&") 0 = .error .invalidPortError ∧
    addMapping ⟨[]⟩ (some "Port_#0001") (some "\\1&A&") 8 = .error .invalidPortError ∧
    addMapping ⟨[]⟩ (some "Port_#0001") (some "\\1&A&")
      ⟨3, 2, by decide, by decide⟩ = .error .invalidPortError ∧
    addMapping ⟨[]⟩ (some "Port_#0001") (some "\\1&A&") 1 =
      .ok (⟨[("1&A|1", 1)]⟩, "1&A|1") ∧
    addMapping ⟨[]⟩ (some "Port_#0001") (some "\\1&A&") 7 =
      .ok (⟨[("1&A|1", 7)]⟩, "1&A|1") := by
  refine ⟨(claim_C2_addMapping_errors ⟨[]⟩ none none 5).1 (by decide),
    ((claim_C2_addMapping_errors ⟨[]⟩ _ _ 0).2 "1&A|1" (by decide)).1
      (Or.inr (Or.inl (by norm_num))),
    ((claim_C2_addMapping_errors ⟨[]⟩ _ _ 8).2 "1&A|1" (by decide)).1
      (Or.inr (Or.inr (by norm_num))),
    ((claim_C2_addMapping_errors ⟨[]⟩ _ _ _).2 "1&A|1" (by decide)).1
      (Or.inl (by decide)),
    ?_, ?_⟩
  · exact (((claim_C2_addMapping_errors ⟨[]⟩ _ _ 1).2 "1&A|1" (by decide)).2
      (by decide) (by norm_num) (by norm_num)).1
  · exact (((claim_C2_addMapping_errors ⟨[]⟩ _ _ 7).2 "1&A|1" (by decide)).2
      (by decide) (by norm_num) (by norm_num)).1

/-- C4: `isCalibrated` is true iff the mapping holds at least 7 entries;
in particular it is false at exactly 6 entries and true at 7 and at 8 or
more, with no condition on the stored port numbers. -/
theorem claim_C4_isCalibrated_threshold (m : PortMapper) :
    (isCalibrated m = true ↔ 7 ≤ getMappingCount m) ∧
    (getMappingCount m = 6 → isCalibrated m = false) ∧
    (getMappingCount m = 7 → isCalibrated m = true) ∧
    (8 ≤ getMappingCount m → isCalibrated m = true) := by
  refine ⟨by simp [isCalibrated, getMappingCount], ?_, ?_, ?_⟩ <;>
    intro h <;> simp [isCalibrated, getMappingCount] at h ⊢ <;> omega

/-- Witness for C4 at a mapper with exactly 7 entries. -/
theorem claim_C4_isCalibrated_threshold_witness :
    isCalibrated ⟨[("1&A|1", 1), ("1&A|2", 2), ("1&A|3", 3), ("1&A|4", 4),
      ("1&A|5", 5), ("1&A|6", 6), ("1&A|7", 7)]⟩ = true :=
  (claim_C4_isCalibrated_threshold ⟨[("1&A|1", 1), ("1&A|2", 2), ("1&A|3", 3),
    ("1&A|4", 4), ("1&A|5", 5), ("1&A|6", 6), ("1&A|7", 7)]⟩).2.2.1 rfl

/-- C5: when the derived key is already present, a successful `addMapping`
returns that key, replaces the stored value, and leaves `getMappingCount`
unchanged; key-uniqueness of the mapping is preserved by every successful
`addMapping`. -/
theorem claim_C5_overwrite_no_growth (m : PortMapper) (loc par : Option String)
    (q : ℚ) (m2 : PortMapper) (kret k : String)
    (hk : normalizeLocation loc par = some k)
    (hadd : addMapping m loc par q = .ok (m2, kret)) :
    kret = k ∧
    lookupMap m2.mappings k = some q.num ∧
    (hasKey m.mappings k = true → getMappingCount m2 = getMappingCount m) ∧
    ((m.mappings.map Prod.fst).Nodup → (m2.mappings.map Prod.fst).Nodup) := by
  have hne := normalizeLocation_ne_empty hk
  rw [addMapping_eq_some hk, if_neg hne] at hadd
  by_cases hcond : (decide (q.den ≠ 1) || decide (q < 1) || decide (7 < q)) = true
  · rw [if_pos hcond] at hadd
    exact absurd hadd (by simp)
  · rw [if_neg hcond] at hadd
    injection hadd with hadd
    obtain ⟨h1, h2⟩ := Prod.mk.injEq .. |>.mp hadd
    refine ⟨h2.symm, ?_, ?_, ?_⟩
    · rw [← h1]
      exact lookupMap_setKey_self _ _ _
    · intro hhas
      rw [getMappingCount, getMappingCount, ← h1]
      exact setKey_length_of_hasKey _ _ _ hhas
    · intro hnd
      rw [← h1]
      exact setKey_nodup _ _ _ hnd

/-- Witness for C5: remapping the existing key `1&A|1` from port 5 to
port 3 overwrites the value and does not change the count. -/
theorem claim_C5_overwrite_no_growth_witness :
    lookupMap [("1&A|1", (3 : Int))] "1&A|1" = some 3 ∧
    getMappingCount ⟨[("1&A|1", 3)]⟩ = getMappingCount ⟨[("1&A|1", 5)]⟩ := by
  have h := claim_C5_overwrite_no_growth ⟨[("1&A|1", 5)]⟩ (some "Port_#0001")
    (some "\\1&A&") 3 ⟨[("1&A|1", 3)]⟩ "1&A|1" "1&A|1" (by decide) (by decide)
  exact ⟨h.2.1, h.2.2.1 (by decide)⟩

theorem getPhysicalPort_eq {m : PortMapper} {loc par : Option String} {k : String}
    (hk : normalizeLocation loc par = some k) :
    getPhysicalPort m loc par =
      if k = "" then none
      else match lookupMap m.mappings k with
        | none => none
        | some v => if v = 0 then none else some v := by
  rw [getPhysicalPort, hk]

theorem getPhysicalPort_none {m : PortMapper} {loc par : Option String}
    (hk : normalizeLocation loc par = none) : getPhysicalPort m loc par = none := by
  rw [getPhysicalPort, hk]

theorem hasMapping_eq {m : PortMapper} {loc par : Option String} {k : String}
    (hk : normalizeLocation loc par = some k) :
    hasMapping m loc par = if k = "" then false else hasKey m.mappings k := by
  rw [hasMapping, hk]

theorem hasMapping_none {m : PortMapper} {loc par : Option String}
    (hk : normalizeLocation loc par = none) : hasMapping m loc par = false := by
  rw [hasMapping, hk]

/-- C10: `getExistingPort` coincides with `getPhysicalPort` everywhere;
when every stored value lies in `[1,7]` (as any store-validated document
guarantees) the falsy-value coercion in the lookup loses no case:
`getPhysicalPort` is present exactly when `hasMapping` is true; and all
query variants return absent/false when normalization fails. -/
theorem claim_C10_query_agreement (m : PortMapper) (loc par : Option String) :
    getExistingPort m loc par = getPhysicalPort m loc par ∧
    ((∀ p ∈ m.mappings, 1 ≤ p.2 ∧ p.2 ≤ 7) →
      (getPhysicalPort m loc par).isSome = hasMapping m loc par) ∧
    (normalizeLocation loc par = none →
      getPhysicalPort m loc par = none ∧ hasMapping m loc par = false ∧
        getExistingPort m loc par = none) := by
  refine ⟨rfl, ?_, fun h => ⟨getPhysicalPort_none h, hasMapping_none h,
    getPhysicalPort_none h⟩⟩
  intro hvals
  cases hn : normalizeLocation loc par with
  | none => rw [getPhysicalPort_none hn, hasMapping_none hn]; rfl
  | some k =>
    have hne := normalizeLocation_ne_empty hn
    rw [getPhysicalPort_eq hn, hasMapping_eq hn, if_neg hne, if_neg hne]
    cases hf : m.mappings.find? fun p => p.1 = k with
    | none =>
      have hl : lookupMap m.mappings k = none := by rw [lookupMap, hf]; rfl
      have hh : hasKey m.mappings k = false := by rw [hasKey, hf]; rfl
      rw [hl, hh]
      rfl
    | some p =>
      have hl : lookupMap m.mappings k = some p.2 := by rw [lookupMap, hf]; rfl
      have hh : hasKey m.mappings k = true := by rw [hasKey, hf]; rfl
      have hmem : p ∈ m.mappings := List.mem_of_find?_eq_some hf
      have hv0 : ¬p.2 = 0 := by have := (hvals p hmem).1; omega
      rw [hl, hh]
      simp [hv0]

/-- Witness for C10: with the single validated entry `9&238498F1|2 → 5`
the present-key lookup is `some` and `hasMapping` is true; with a
non-normalizing parent all queries are absent. -/
theorem claim_C10_query_agreement_witness :
    (getPhysicalPort ⟨[("9&238498F1|2", 5)]⟩ (some "Port_#0002.Hub_#0008")
      (some "USB\\VID_2109&PID_0822\\9&238498F1&0&3")).isSome =
      hasMapping ⟨[("9&238498F1|2", 5)]⟩ (some "Port_#0002.Hub_#0008")
        (some "USB\\VID_2109&PID_0822\\9&238498F1&0&3") ∧
    getPhysicalPort ⟨[("9&238498F1|2", 5)]⟩ (some "Port_#0002.Hub_#0008") none = none := by
  refine ⟨(claim_C10_query_agreement ⟨[("9&238498F1|2", 5)]⟩ _ _).2.1 ?_,
    ((claim_C10_query_agreement ⟨[("9&238498F1|2", 5)]⟩
      (some "Port_#0002.Hub_#0008") none).2.2 (by decide)).1⟩
  intro p hp
  have : p = ("9&238498F1|2", (5 : Int)) := by simpa using hp
  rw [this]
  exact ⟨by norm_num, by norm_num⟩

theorem isKnownChip_eq {m : PortMapper} {loc par : Option String} {cp : String}
    (hc : extractChipPrefix par = some cp) :
    isKnownChip m loc par =
      if cp = "" then false
      else m.mappings.any fun p => startsWithL (cp.data ++ ['|']) p.1.data := by
  rw [isKnownChip, hc]

theorem isKnownChip_none {m : PortMapper} {loc par : Option String}
    (hc : extractChipPrefix par = none) : isKnownChip m loc par = false := by
  rw [isKnownChip, hc]

/-- C9: over store-validated keys, `isKnownChip` is true exactly when the
chip prefix extracted from the parent equals the chip-prefix portion (the
part before the pipe) of at least one existing mapping key — the port
index plays no role — and it is false when no prefix can be extracted. -/
theorem claim_C9_isKnownChip (m : PortMapper) (loc par : Option String)
    (hkeys : ∀ p ∈ m.mappings, keyPatternTest p.1 = true) :
    (isKnownChip m loc par = true ↔
      ∃ cp, extractChipPrefix par = some cp ∧
        ∃ p ∈ m.mappings, chipOfKey p.1 = cp) ∧
    (extractChipPrefix par = none → isKnownChip m loc par = false) := by
  refine ⟨?_, fun h => isKnownChip_none h⟩
  cases hc : extractChipPrefix par with
  | none =>
    rw [isKnownChip_none hc]
    simp
  | some cp =>
    have hne := extractChipPrefix_ne_empty hc
    rw [isKnownChip_eq hc, if_neg hne]
    rw [List.any_eq_true]
    constructor
    · rintro ⟨p, hp, hsw⟩
      obtain ⟨t, ht⟩ := (startsWithL_iff _ _).mp hsw
      refine ⟨cp, rfl, p, hp, ?_⟩
      have hshape2 : p.1.data = cp.data ++ '|' :: t := by
        rw [ht, List.append_assoc]
        rfl
      exact chipOfKey_of_append hshape2
        fun c hcc => (extractChipPrefix_chars hc c hcc).2
    · rintro ⟨cp2, hcp2, p, hp, hchip⟩
      injection hcp2 with hcp2
      subst hcp2
      refine ⟨p, hp, ?_⟩
      obtain ⟨ds, hs, ds2, hdata, hdne, hdall, hhne, hhall, hd2ne, hd2all⟩ :=
        keyPatternTest_decomp (hkeys p hp)
      have hshape : p.1.data = (ds ++ '&' :: hs) ++ '|' :: ds2 := by
        rw [hdata, List.append_assoc]
        rfl
      have hnp : ∀ c ∈ ds ++ '&' :: hs, (c ≠ '|') := by
        intro c hcc
        rcases List.mem_append.mp hcc with h | h
        · exact digit_ne_pipe (hdall c h)
        · rcases List.mem_cons.mp h with h | h
          · subst h; decide
          · exact hex_ne_pipe (hhall c h)
      have hchip2 : chipOfKey p.1 = ⟨ds ++ '&' :: hs⟩ := by
        apply String.ext
        show (p.1.data.takeWhile fun c => decide (c ≠ '|')) = ds ++ '&' :: hs
        rw [hshape]
        exact takeWhile_append_stop (fun c hcc => by simp [hnp c hcc]) (by simp)
      have hcpd : cp.data = ds ++ '&' :: hs := by
        rw [← hchip, hchip2]
      rw [(startsWithL_iff _ _)]
      exact ⟨ds2, by simp [hshape, hcpd, List.append_assoc]⟩

/-- Witness for C9: the chip of the stored key `9&238498F1|2` is
recognized from a parent reporting port index 3, which is absent from
every key. -/
theorem claim_C9_isKnownChip_witness :
    isKnownChip ⟨[("9&238498F1|2", 5)]⟩ (some "Port_#0003.Hub_#0008")
      (some "USB\\VID_2109&PID_0822\\9&238498F1&0&3") = true := by
  have h := claim_C9_isKnownChip ⟨[("9&238498F1|2", 5)]⟩ (some "Port_#0003.Hub_#0008")
    (some "USB\\VID_2109&PID_0822\\9&238498F1&0&3") (by decide)
  exact h.1.mpr ⟨"9&238498F1", by decide, ("9&238498F1|2", 5), by decide, by decide⟩

theorem natToStr_data_digits (n : Nat) :
    (natToStr n).data ≠ [] ∧ ∀ c ∈ (natToStr n).data, isDigitC c = true :=
  ⟨natDigitsAux_ne_nil _ _ _ (Or.inl (by omega)),
    fun c hc => natDigitsAux_all_digits _ _ _ (by simp) c hc⟩

theorem extractPortIndex_some_parts {loc : Option String} {pi : String}
    (h : extractPortIndex loc = some pi) :
    ∃ l ds, loc = some l ∧ findPort l.data = some ds ∧ pi = jsParsePrint ds := by
  cases loc with
  | none => exact absurd h (by simp [extractPortIndex])
  | some l =>
    rw [extractPortIndex] at h
    by_cases hl : l = ""
    · rw [if_pos hl] at h; exact absurd h (by simp)
    · rw [if_neg hl] at h
      cases hf : findPort l.data with
      | none => rw [hf] at h; exact absurd h (by simp)
      | some ds =>
        rw [hf] at h
        injection h with h
        exact ⟨l, ds, rfl, hf, h.symm⟩

set_option maxRecDepth 8192 in
set_option exponentiation.threshold 2048 in
/-- C3 counterexample: a port digit run of `1` followed by 21 zeros parses
to the double `1e21`, which `String` renders in exponential notation, so
`normalizeLocation` produces the key `1&A|1e+21` — and that key fails the
store's key-pattern validator. -/
theorem claim_C3_counterexample :
    normalizeLocation (some "Port_#1000000000000000000000") (some "\\1&A&") =
      some "1&A|1e+21" ∧
    keyPatternTest "1&A|1e+21" = false :=
  ⟨by decide, by decide⟩

/-- C3 (amended): whenever the matched port digit run values below `2^53`
(the range where a JS double is exact and `String` renders plain decimal
digits), every key produced by `normalizeLocation` matches the Calibration
Store's key-pattern validator; `normalizeLocation` is absent whenever
either sub-extraction is absent.  For longer digit runs the JS
number-to-string pipeline can emit exponential notation or `Infinity`,
and the produced key fails the validator. -/
theorem claim_C3_key_roundtrip (loc par : Option String)
    (hsmall : ∀ l ds, loc = some l → findPort l.data = some ds →
      digitsToNat ds < 2 ^ 53) :
    (∀ k, normalizeLocation loc par = some k → keyPatternTest k = true) ∧
    (extractChipPrefix par = none ∨ extractPortIndex loc = none →
      normalizeLocation loc par = none) := by
  constructor
  · intro k hk
    obtain ⟨cp, pi, hc, hp, _, _, hkk⟩ := normalizeLocation_some hk
    obtain ⟨ds, hs, hcp, hdne, hdall, hhne, hhall⟩ := extractChipPrefix_some hc
    obtain ⟨l, ds0, hl, hfp, hpi⟩ := extractPortIndex_some_parts hp
    have hpi2 : pi = natToStr (digitsToNat ds0) := by
      rw [hpi, jsParsePrint_small (hsmall l ds0 hl hfp)]
    obtain ⟨hpne, hpall⟩ : pi.data ≠ [] ∧ ∀ c ∈ pi.data, isDigitC c = true := by
      rw [hpi2]
      exact natToStr_data_digits _
    have hkdata : k.data = ds ++ '&' :: (hs ++ '|' :: pi.data) := by
      rw [hkk, string_append_data, string_append_data, hcp]
      have hb : ("|" : String).data = ['|'] := rfl
      rw [hb, List.append_assoc, List.append_assoc]
      rfl
    have hkstr : k = ⟨ds ++ '&' :: (hs ++ '|' :: pi.data)⟩ := String.ext hkdata
    rw [hkstr]
    exact keyPatternTest_build hdne hdall hhne hhall hpne hpall
  · rintro (h | h)
    · exact normalizeLocation_none_left h
    · exact normalizeLocation_none_right h

/-- Witness for C3: the key produced in the end-to-end scenario passes the
validator, and a missing parent yields no key. -/
theorem claim_C3_key_roundtrip_witness :
    keyPatternTest "9&238498F1|2" = true ∧
    normalizeLocation (some "Port_#0002.Hub_#0008") none = none := by
  have hsm : ∀ l ds, (some "Port_#0002.Hub_#0008" : Option String) = some l →
      findPort l.data = some ds → digitsToNat ds < 2 ^ 53 := by
    intro l ds hl hf
    have hl2 : l = "Port_#0002.Hub_#0008" := by injection hl with h; exact h.symm
    subst hl2
    have hfv : findPort ("Port_#0002.Hub_#0008" : String).data =
        some ['0', '0', '0', '2'] := by decide
    rw [hfv] at hf
    injection hf with hf
    subst hf
    decide
  exact ⟨(claim_C3_key_roundtrip (some "Port_#0002.Hub_#0008")
      (some "USB\\VID_2109&PID_0822\\9&238498F1&0&3") hsm).1 "9&238498F1|2" (by decide),
    (claim_C3_key_roundtrip (some "Port_#0002.Hub_#0008") none hsm).2
      (Or.inl (by decide))⟩

set_option maxRecDepth 8192 in
set_option exponentiation.threshold 2048 in
/-- C7 counterexample: for `Port_#9007199254740993` (digit run `2^53 + 1`)
the JS parse rounds to the even double `2^53`, so `extractPortIndex`
returns `9007199254740992` and not the matched digits with leading zeros
stripped. -/
theorem claim_C7_counterexample :
    extractPortIndex (some "Port_#9007199254740993") ≠
      some ⟨stripLeadingZeros ("9007199254740993" : String).data⟩ ∧
    extractPortIndex (some "Port_#9007199254740993") =
      some "9007199254740992" :=
  ⟨by decide, by decide⟩

/-- C7 (amended): for every location whose first `Port_#` digit run values
below `2^53` (the range where a JS double is exact), `extractPortIndex`
returns those digits with leading zeros stripped via integer
parse-and-restringify (`Port_#0003` yields `3`, `Port_#0000` yields `0`,
`Port_#42` yields `42`); a match is found in every location containing
`Port_#` followed by digits; absent locations or locations without such a
segment yield absent, never an error.  At `2^53` and beyond the parse
rounds, so the returned string can differ from the matched digits. -/
theorem claim_C7_extractPortIndex (l : String) :
    (∀ ds, findPort l.data = some ds → digitsToNat ds < 2 ^ 53 →
      extractPortIndex (some l) = some ⟨stripLeadingZeros ds⟩) ∧
    (findPort l.data = none → extractPortIndex (some l) = none) ∧
    extractPortIndex none = none ∧
    (∀ pre ds post, ds ≠ [] → (∀ c ∈ ds, isDigitC c = true) →
      (findPort (pre ++ ("Port_#".data ++ (ds ++ post)))).isSome = true) ∧
    extractPortIndex (some "Port_#0003") = some "3" ∧
    extractPortIndex (some "Port_#0000") = some "0" ∧
    extractPortIndex (some "Port_#42") = some "42" := by
  refine ⟨fun ds h hsm => extractPortIndex_eq_strip h hsm, ?_, rfl, findPort_finds,
    by decide, by decide, by decide⟩
  intro h
  rw [extractPortIndex]
  by_cases hl : l = ""
  · rw [if_pos hl]
  · rw [if_neg hl, h]
    rfl

/-- Witness for C7: a location with a leading-zero port segment embedded in
other text yields the stripped digits, and a location with no match yields
absent. -/
theorem claim_C7_extractPortIndex_witness :
    extractPortIndex (some "xPort_#007y") = some "7" ∧
    extractPortIndex (some "no match here") = none := by
  constructor
  · have h := (claim_C7_extractPortIndex "xPort_#007y").1 ['0', '0', '7']
      (by decide) (by decide)
    rw [h]
    decide
  · exact (claim_C7_extractPortIndex "no match here").2.1 (by decide)

/-- C8 counterexample: the claim asserts idempotence of `extractChipPrefix`
on well-formed parents, but for the well-formed parent
`USB\VID_2109&PID_0822\9&238498F1&0&3` (whose extraction succeeds) a
second application to the extracted output yields absent, not the same
result: the output lacks the backslash delimiter the pattern requires. -/
theorem claim_C8_counterexample :
    extractChipPrefix (some "USB\\VID_2109&PID_0822\\9&238498F1&0&3") =
      some "9&238498F1" ∧
    extractChipPrefix (extractChipPrefix
        (some "USB\\VID_2109&PID_0822\\9&238498F1&0&3")) ≠
      extractChipPrefix (some "USB\\VID_2109&PID_0822\\9&238498F1&0&3") :=
  ⟨by decide, by decide⟩

/-- C8 (amended): `extractChipPrefix` is case-normalizing — two parent
strings that agree up to ASCII letter case (as the two speed-class device
nodes of one chip report them) yield the identical uppercased prefix — but
it is not idempotent: applied to any of its own outputs it yields absent,
since an extracted prefix never contains the backslash the pattern
requires. -/
theorem claim_C8_case_normalizing :
    (∀ s1 s2 : String, s1.data.map upChar = s2.data.map upChar →
      extractChipPrefix (some s1) = extractChipPrefix (some s2)) ∧
    (∀ (p : Option String) (cp : String), extractChipPrefix p = some cp →
      extractChipPrefix (some cp) = none) :=
  ⟨fun _ _ h => extractChipPrefix_upperEq h, fun _ _ h => extractChipPrefix_self_none h⟩

/-- Witness for C8: the same chain observed with lower-case hex yields the
identical prefix, and re-extraction from the extracted prefix is absent. -/
theorem claim_C8_case_normalizing_witness :
    extractChipPrefix (some "USB\\VID_2109&PID_0822\\9&238498f1&0&3") =
      extractChipPrefix (some "usb\\vid_2109&pid_0822\\9&238498F1&0&3") ∧
    extractChipPrefix (some "9&238498F1") = none :=
  ⟨claim_C8_case_normalizing.1 _ _ (by decide),
    claim_C8_case_normalizing.2
      (some "USB\\VID_2109&PID_0822\\9&238498F1&0&3") "9&238498F1" (by decide)⟩

theorem validate_eq_some (d : JsonVal) :
    validate (some d) =
      (if !truthy d || !typeofIsObject d then .error .notObject
       else if !strictEqStr (getField d "version") SCHEMA_VERSION then .error .badVersion
       else
         match getField d "mappings" with
         | none => .error .badMappings
         | some mp =>
           if !truthy mp || !typeofIsObject mp then .error .badMappings
           else validateEntries (entriesOf mp)) := rfl

theorem validate_mappings_none {d : JsonVal}
    (h1 : (!truthy d || !typeofIsObject d) = false)
    (h2 : (!strictEqStr (getField d "version") SCHEMA_VERSION) = false)
    (hm : getField d "mappings" = none) : validate (some d) = .error .badMappings := by
  rw [validate_eq_some, if_neg (by rw [h1]; simp), if_neg (by rw [h2]; simp), hm]

theorem validate_mappings_some {d mp : JsonVal}
    (h1 : (!truthy d || !typeofIsObject d) = false)
    (h2 : (!strictEqStr (getField d "version") SCHEMA_VERSION) = false)
    (hm : getField d "mappings" = some mp) :
    validate (some d) =
      if !truthy mp || !typeofIsObject mp then .error .badMappings
      else validateEntries (entriesOf mp) := by
  rw [validate_eq_some, if_neg (by rw [h1]; simp), if_neg (by rw [h2]; simp), hm]

theorem mappingsFieldOK_some {d mp : JsonVal} (hm : getField d "mappings" = some mp) :
    mappingsFieldOK (some d) = (truthy mp && typeofIsObject mp) := by
  rw [mappingsFieldOK, hm]

theorem mappingsFieldOK_none {d : JsonVal} (hm : getField d "mappings" = none) :
    mappingsFieldOK (some d) = false := by
  rw [mappingsFieldOK, hm]

theorem hasBadKey_some {d mp : JsonVal} (hm : getField d "mappings" = some mp) :
    hasBadKey (some d) = (entriesOf mp).any fun p => !keyPatternTest p.1 := by
  rw [hasBadKey, hm]

theorem hasBadValue_some {d mp : JsonVal} (hm : getField d "mappings" = some mp) :
    hasBadValue (some d) = (entriesOf mp).any fun p => !validValue p.2 := by
  rw [hasBadValue, hm]

theorem all_and_split (es : List (String × JsonVal)) :
    (es.all fun p => keyPatternTest p.1 && validValue p.2) =
      (!(es.any fun p => !keyPatternTest p.1) && !(es.any fun p => !validValue p.2)) := by
  induction es with
  | nil => rfl
  | cons p t ih =>
    cases hk : keyPatternTest p.1 <;> cases hv : validValue p.2 <;>
      simp [List.all_cons, List.any_cons, hk, hv, ih]

/-- C6: `validate` succeeds exactly on documents that are structured
records with version exactly `1.0`, a present mapping-structure `mappings`
field, every key matching the identity-key pattern, and every value an
integer in `[1,7]`; the claim's concrete rejections (non-record payload,
wrong version, key `abc|3`, values 0 and 8) and a concrete acceptance are
recorded. -/
theorem claim_C6_validate_schema :
    (∀ data : Option JsonVal,
      (validate data).isOk =
        (isStructuredRecord data && versionFieldOK data && mappingsFieldOK data &&
          !hasBadKey data && !hasBadValue data)) ∧
    (validate (some (.str "payload"))).isOk = false ∧
    (validate (some (.obj [("version", .str "2.0"), ("mappings", .obj [])]))).isOk
      = false ∧
    (validate (some (.obj [("version", .str "1.0"),
      ("mappings", .obj [("abc|3", .num 3)])]))).isOk = false ∧
    (validate (some (.obj [("version", .str "1.0"),
      ("mappings", .obj [("9&238498F1|2", .num 0)])]))).isOk = false ∧
    (validate (some (.obj [("version", .str "1.0"),
      ("mappings", .obj [("9&238498F1|2", .num 8)])]))).isOk = false ∧
    (validate (some (.obj [("version", .str "1.0"),
      ("mappings", .obj [("9&238498F1|2", .num 5)])]))).isOk = true := by
  refine ⟨?_, by decide, by decide, by decide, by decide, by decide, by decide⟩
  intro data
  cases data with
  | none => rfl
  | some d =>
    by_cases h1 : (!truthy d || !typeofIsObject d) = true
    · rw [validate_eq_some, if_pos h1]
      have hs : isStructuredRecord (some d) = false := by
        rw [show isStructuredRecord (some d) = (truthy d && typeofIsObject d) from rfl]
        revert h1
        cases truthy d <;> cases typeofIsObject d <;> simp
      simp [Except.isOk, Except.toBool, hs]
    · have h1f : (!truthy d || !typeofIsObject d) = false := by
        revert h1; cases truthy d <;> cases typeofIsObject d <;> simp
      have hs : isStructuredRecord (some d) = true := by
        rw [show isStructuredRecord (some d) = (truthy d && typeofIsObject d) from rfl]
        revert h1f; cases truthy d <;> cases typeofIsObject d <;> simp
      by_cases h2 : (!strictEqStr (getField d "version") SCHEMA_VERSION) = true
      · rw [validate_eq_some, if_neg (by rw [h1f]; simp), if_pos h2]
        have hv : versionFieldOK (some d) = false := by
          rw [show versionFieldOK (some d) =
            strictEqStr (getField d "version") SCHEMA_VERSION from rfl]
          revert h2; cases strictEqStr (getField d "version") SCHEMA_VERSION <;> simp
        simp [Except.isOk, Except.toBool, hs, hv]
      · have h2f : (!strictEqStr (getField d "version") SCHEMA_VERSION) = false := by
          revert h2; cases strictEqStr (getField d "version") SCHEMA_VERSION <;> simp
        have hv : versionFieldOK (some d) = true := by
          rw [show versionFieldOK (some d) =
            strictEqStr (getField d "version") SCHEMA_VERSION from rfl]
          revert h2f; cases strictEqStr (getField d "version") SCHEMA_VERSION <;> simp
        cases hm : getField d "mappings" with
        | none =>
          rw [validate_mappings_none h1f h2f hm]
          have hmf : mappingsFieldOK (some d) = false := mappingsFieldOK_none hm
          simp [Except.isOk, Except.toBool, hs, hv, hmf]
        | some mp =>
          rw [validate_mappings_some h1f h2f hm]
          by_cases h3 : (!truthy mp || !typeofIsObject mp) = true
          · rw [if_pos h3]
            have hmf : mappingsFieldOK (some d) = false := by
              rw [mappingsFieldOK_some hm]
              revert h3; cases truthy mp <;> cases typeofIsObject mp <;> simp
            simp [Except.isOk, Except.toBool, hs, hv, hmf]
          · rw [if_neg h3]
            have hmf : mappingsFieldOK (some d) = true := by
              rw [mappingsFieldOK_some hm]
              revert h3; cases truthy mp <;> cases typeofIsObject mp <;> simp
            rw [validateEntries_isOk, all_and_split, hs, hv, hmf,
              hasBadKey_some hm, hasBadValue_some hm]
            simp

end HubMap
